import Mathlib

/-!
# arc-todo: the template parser, the reference resolver and the submission driver

A shallow embedding of `main.go`.  Go strings and byte slices are lists of
bytes (`Bytes`), indices are `Int` as Go's `int`, and every point at which the
Go program can stop early (a `fatal...` call, `log.Fatal`, a run-time panic of a
slice or index expression) is a value of `Failure` carried by `Except`.
The outcomes of the external world (file system, editor, `arc` subprocesses)
are inputs of the model.
-/

namespace ArcTodo

/-! ## Strings and failures -/

/-- A Go `string` or `[]byte`: a sequence of bytes. -/
abbrev Bytes := List Nat

/-- The bytes of an ASCII literal. -/
def str (s : String) : Bytes := s.data.map Char.toNat

/-- An argument of a `fmt.Errorf` call: `%q` takes a string, `%d` an int. -/
inductive Arg where
  | q (s : Bytes)
  | d (n : Int)
  deriving DecidableEq, Repr

/-- The `error` values the program hands to `fatalWithCaller`. -/
inductive GoError where
  /-- The value `errors.New(msg)`, built by `fatal(msg)`. -/
  | new (msg : Bytes)
  /-- The value `fmt.Errorf(format, args...)`, built by `fatalf(format, args...)`. -/
  | errorf (format : Bytes) (args : List Arg)
  /-- An error returned by a library or system call, seen by `fatalIf`. -/
  | sys (text : Bytes)
  deriving DecidableEq, Repr

/-- The ways a run stops early. -/
inductive Failure where
  /-- The call `fatalWithCaller(err)` reached from the call at `main.go:line`: the
  diagnostic is `main.go:line` followed by the error text, then exit. -/
  | fatal (line : Nat) (err : GoError)
  /-- A direct `log.Fatal(msg)`. -/
  | logFatal (msg : Bytes)
  /-- A Go run-time panic (slice bounds, index out of range). -/
  | panic (what : String)
  deriving DecidableEq, Repr

/-- A computation of the program: a value, or the failure that stopped it. -/
abbrev Run := Except Failure

/-- The call `fatalIf(err)` at `main.go:line`. -/
def fatalIf (line : Nat) (err : Option Bytes) : Run Unit :=
  match err with
  | none => .ok ()
  | some e => .error (.fatal line (.sys e))

/-- The call `fatalf(format, args...)` at `main.go:line`. -/
def fatalf {α : Type} (line : Nat) (format : Bytes) (args : List Arg) : Run α :=
  .error (.fatal line (.errorf format args))

/-- The call `fatal(msg)` at `main.go:line`. -/
def fatal {α : Type} (line : Nat) (msg : Bytes) : Run α :=
  .error (.fatal line (.new msg))

/-- The Go slice expression `buf[lo:hi]`: it panics unless
`0 <= lo <= hi <= len(buf)`. -/
def slice (buf : Bytes) (lo hi : Int) : Run Bytes :=
  if 0 ≤ lo ∧ lo ≤ hi ∧ hi ≤ (buf.length : Int) then
    .ok ((buf.drop lo.toNat).take (hi - lo).toNat)
  else .error (.panic "slice bounds out of range")

/-! ## Library functions used by the parser -/

/-- The class `\w` of Go's regexp: `[0-9A-Za-z_]`. -/
def isWord (b : Nat) : Bool :=
  (48 ≤ b && b ≤ 57) || (65 ≤ b && b ≤ 90) || b == 95 || (97 ≤ b && b ≤ 122)

/-- Length of the match of `(\w+):` anchored at the head of `s`, if any: the
longest run of word bytes, non-empty, followed by a colon. -/
def matchLen (s : Bytes) : Option Nat :=
  let w := (s.takeWhile isWord).length
  if 0 < w ∧ s.get? w = some 58 then some (w + 1) else none

/-- The scanning loop of `re.FindAllIndex(buf, -1)` for
`re = (?m)^(\w+):`.  `pos` is the offset of the head of the remaining text,
`ls` tells whether `^` holds there (start of text, or the previous byte is a
newline) and `skip` is the number of bytes still covered by the last match:
the search for the next match resumes at the end of the previous one. -/
def scan (pos : Nat) (ls : Bool) (skip : Nat) : Bytes → List (List Int)
  | [] => []
  | b :: rest =>
    if skip = 0 then
      if ls then
        match matchLen (b :: rest) with
        | some n => [(pos : Int), ((pos + n : Nat) : Int)] :: scan (pos + 1) (b == 10) (n - 1) rest
        | none => scan (pos + 1) (b == 10) 0 rest
      else scan (pos + 1) (b == 10) 0 rest
    else scan (pos + 1) (b == 10) (skip - 1) rest

/-- Model of `re.FindAllIndex(buf, -1)`: the `[start, end]` pairs of the
successive non-overlapping matches of `(?m)^(\w+):`, leftmost first. -/
def findAllIndex (buf : Bytes) : List (List Int) := scan 0 true 0 buf

/-- Model of `strings.ToLower` on a label: the regexp only captures ASCII
word bytes, and on an ASCII string `ToLower` maps `A`..`Z` to `a`..`z` and
leaves every other byte as it is. -/
def toLower (s : Bytes) : Bytes := s.map (fun b => if 65 ≤ b ∧ b ≤ 90 then b + 32 else b)

/-- The white-space bytes of ASCII: tab, newline, vertical tab, form feed,
carriage return, space. -/
def isSpace1 (a : Nat) : Bool := (9 ≤ a && a ≤ 13) || a == 32

/-- The two-byte UTF-8 encodings of white space: U+0085 and U+00A0. -/
def isSpace2 (a b : Nat) : Bool := a == 0xC2 && (b == 0x85 || b == 0xA0)

/-- The three-byte UTF-8 encodings of white space: U+1680, U+2000..U+200A,
U+2028, U+2029, U+202F, U+205F, U+3000. -/
def isSpace3 (a b c : Nat) : Bool :=
  (a == 0xE1 && b == 0x9A && c == 0x80) ||
  (a == 0xE2 && b == 0x80 && ((0x80 ≤ c && c ≤ 0x8A) || c == 0xA8 || c == 0xA9 || c == 0xAF)) ||
  (a == 0xE2 && b == 0x81 && c == 0x9F) ||
  (a == 0xE3 && b == 0x80 && c == 0x80)

/-- Removes from the front of `s` every group of one, two or three bytes
accepted by `p1`, `p2`, `p3`. -/
def strip (p1 : Nat → Bool) (p2 : Nat → Nat → Bool) (p3 : Nat → Nat → Nat → Bool) :
    Bytes → Bytes
  | [] => []
  | a :: t0 =>
    if p1 a then strip p1 p2 p3 t0
    else match t0 with
      | [] => a :: t0
      | b :: t1 =>
        if p2 a b then strip p1 p2 p3 t1
        else match t1 with
          | [] => a :: t0
          | c :: t2 => if p3 a b c then strip p1 p2 p3 t2 else a :: t0

/-- The `strings.TrimLeftFunc(s, unicode.IsSpace)` half of `TrimSpace`: Go
decodes one rune after the other from the front and stops at the first that
is not white space.  A rune decoded at the front is white space exactly when
the text starts with the well-formed UTF-8 encoding of a white-space rune (a
malformed sequence decodes to U+FFFD, which is not white space). -/
def trimLeft (s : Bytes) : Bytes := strip isSpace1 isSpace2 isSpace3 s

/-- The `strings.TrimRightFunc(s, unicode.IsSpace)` half of `TrimSpace`: Go
decodes one rune after the other from the back (`utf8.DecodeLastRune`) and
stops at the first that is not white space; a rune decoded at the back is
white space exactly when the text ends with the well-formed encoding of a
white-space rune.  The same stripping as `trimLeft`, read from the end. -/
def trimRight (s : Bytes) : Bytes :=
  (strip isSpace1 (fun a b => isSpace2 b a) (fun a b c => isSpace3 c b a) s.reverse).reverse

/-- Model of `strings.TrimSpace`, which is
`TrimRightFunc(TrimLeftFunc(s, unicode.IsSpace), unicode.IsSpace)`: all
leading and trailing white space is removed, white space being the runes of
`unicode.IsSpace` (U+0009..U+000D, U+0020, U+0085, U+00A0, U+1680,
U+2000..U+200A, U+2028, U+2029, U+202F, U+205F, U+3000). -/
def trimSpace (s : Bytes) : Bytes := trimRight (trimLeft s)

/-! ## The parser of `main` -/

/-- The static table `keysToConduit`. -/
def keysToConduit : List (Bytes × Bytes) :=
  [ (str "title", str "title"),
    (str "description", str "description"),
    (str "owner", str "ownerPHID"),
    (str "cc", str "ccPHIDs"),
    (str "priority", str "priority"),
    (str "projects", str "projectPHIDs"),
    (str "points", str "points") ]

/-- The local type `keyMatch` of `main`. -/
structure KeyMatch where
  /-- Start of the label and position of its colon (`start/finish`). -/
  index : Int × Int
  key : Bytes
  deriving DecidableEq, Repr

/-- A value of the `map[string]interface{}` named `data`: a string, or the
`[]string` returned by `getPHIDs`. -/
inductive Value where
  | str (s : Bytes)
  | strs (l : List Bytes)
  deriving DecidableEq, Repr

/-- A Go map with string keys, as an association list with one entry per key. -/
abbrev GoMap (β : Type) := List (Bytes × β)

/-- The lookup `v, ok := m[k]`. -/
def GoMap.get {β : Type} (m : GoMap β) (k : Bytes) : Option β := List.lookup k m

/-- The assignment `m[k] = v`. -/
def GoMap.set {β : Type} (m : GoMap β) (k : Bytes) (v : β) : GoMap β :=
  match m with
  | [] => [(k, v)]
  | (k0, v0) :: rest => if k0 = k then (k, v) :: rest else (k0, v0) :: GoMap.set rest k v

/-- The match loop of `main` (lines 93-107): `matches` is the slice built so
far, the first argument is what remains of `res`. -/
def matchLoop (buf : Bytes) : List (List Int) → List KeyMatch → Run (List KeyMatch)
  | [], acc => .ok acc
  | m :: rest, acc =>
    match m with
    | [m0, m1] =>
      let s := m0
      let e := m1 - 1
      match slice buf s e with
      | .error f => .error f
      | .ok key =>
        match keysToConduit.lookup (toLower key) with
        | some k => matchLoop buf rest (acc ++ [⟨(s, e), k⟩])
        | none => matchLoop buf rest acc
    | _ => .error (.logFatal (str "Invalid index length"))

/-- The body of the pairing loop of `main` (lines 112-122) at index `i`. -/
def pairStep (buf : Bytes) (ms : List KeyMatch) (i : Nat) (m : KeyMatch)
    (data : GoMap Value) : Run (GoMap Value) :=
  let ends : Run Int :=
    if (i : Int) = (ms.length : Int) - 1 then .ok (buf.length : Int)
    else match ms.get? (i + 1) with
      | some m1 => .ok m1.index.1
      | none => .error (.panic "index out of range")
  match ends with
  | .error f => .error f
  | .ok ends =>
    match slice buf (m.index.2 + 1) ends with
    | .error f => .error f
    | .ok span =>
      let value := trimSpace span
      if value ≠ [] then .ok (data.set m.key (.str value)) else .ok data

/-- The pairing loop `for i, m := range matches` from index `i` on. -/
def pairFrom (buf : Bytes) (ms : List KeyMatch) : Nat → List KeyMatch → GoMap Value →
    Run (GoMap Value)
  | _, [], data => .ok data
  | i, m :: rest, data =>
    match pairStep buf ms i m data with
    | .error f => .error f
    | .ok data1 => pairFrom buf ms (i + 1) rest data1

/-- The pairing loop of `main` (lines 109-123). -/
def pairLoop (buf : Bytes) (ms : List KeyMatch) : Run (GoMap Value) :=
  pairFrom buf ms 0 ms []

/-- The section parser: lines 85-123 of `main`. -/
def parse (buf : Bytes) : Run (GoMap Value) :=
  match matchLoop buf (findAllIndex buf) [] with
  | .error f => .error f
  | .ok ms => pairLoop buf ms

/-! ## The reference resolver `getPHIDs` -/

/-- Number of keys of a Go map, `len(m)`. -/
def GoMap.len {β : Type} (m : GoMap β) : Nat := (m.map Prod.fst).dedup.length

/-- Model of `strings.Split(s, ",")` for the one-byte separator `sep`: the
pieces between the separators, always at least one piece. -/
def split (sep : Nat) : Bytes → List Bytes
  | [] => [[]]
  | b :: t =>
    if b = sep then [] :: split sep t
    else match split sep t with
      | [] => [[b]]
      | p :: ps => (b :: p) :: ps

/-- The loop of `getPHIDs` that fills `objects["names"]` (lines 212-218):
`sigil` is the parameter `prefix`, `acc` the names appended so far.  The index
expression `v[0]` panics on an empty piece. -/
def namesLoop (sigil : Nat) : List Bytes → List Bytes → Run (List Bytes)
  | [], acc => .ok acc
  | piece :: rest, acc =>
    let v := trimSpace piece
    match v with
    | [] => .error (.panic "index out of range")
    | v0 :: _ =>
      let v1 := if v0 ≠ sigil then sigil :: v else v
      namesLoop sigil rest (acc ++ [v1])

/-- The token list `objects["names"]` that `getPHIDs(value, prefix)` sends. -/
def requestNames (value : Bytes) (sigil : Nat) : Run (List Bytes) :=
  namesLoop sigil (split 44 value) []

/-- The decoded reply of `arc call-conduit phid.lookup` (the local `res` of
`getPHIDs`). -/
structure LookupReply where
  error : Bytes
  errorMessage : Bytes
  response : GoMap (GoMap Bytes)
  deriving DecidableEq, Repr

/-- What the outside world answers during one call of `getPHIDs`: the error,
if any, of `json.Marshal`, `cmd.Start`, `cmd.Wait` and `Decode`, and the
decoded reply. -/
structure LookupEnv where
  marshalErr : Option Bytes
  startErr : Option Bytes
  waitErr : Option Bytes
  decodeErr : Option Bytes
  res : LookupReply
  deriving DecidableEq, Repr

/-- The assignment `phids[i] = x`: an index panic when `i` is not below
`len(phids)`. -/
def setIndex (phids : List Bytes) (i : Nat) (x : Bytes) : Run (List Bytes) :=
  if i < phids.length then .ok (phids.set i x) else .error (.panic "index out of range")

/-- The collecting loop of `getPHIDs` (lines 248-254) from index `i` on. -/
def collectLoop (response : GoMap (GoMap Bytes)) : Nat → List Bytes → List Bytes →
    Run (List Bytes)
  | _, [], phids => .ok phids
  | i, o :: rest, phids =>
    match response.get o with
    | none => fatalf 251 (str "unable to find the phid of %q") [.q o]
    | some v =>
      match setIndex phids i ((v.get (str "phid")).getD []) with
      | .error f => .error f
      | .ok phids1 => collectLoop response (i + 1) rest phids1

/-- Lines 242-256 of `getPHIDs`: the error check on the decoded reply and the
collection of the identifiers of `names`. -/
def lookupDecoded (res : LookupReply) (names : List Bytes) : Run (List Bytes) :=
  if res.error ≠ [] ∨ res.errorMessage ≠ [] then fatal 244 res.errorMessage
  else collectLoop res.response 0 names (List.replicate res.response.len [])

/-- The function `getPHIDs(value, prefix)`, run against the answers `env`. -/
def getPHIDs (value : Bytes) (sigil : Nat) (env : LookupEnv) : Run (List Bytes) := do
  let names ← requestNames value sigil
  fatalIf 221 env.marshalErr
  fatalIf 229 env.startErr
  fatalIf 231 env.waitErr
  fatalIf 240 env.decodeErr
  lookupDecoded env.res names

/-! ## The driver `main` -/

/-- The decoded reply of `arc call-conduit maniphest.createtask`. -/
structure SubmitReply where
  error : Bytes
  errorMessage : Bytes
  uri : Bytes
  objectName : Bytes
  deriving DecidableEq, Repr

/-- What the outside world answers during one run of `main`. -/
structure Env where
  tempFileErr : Option Bytes
  writeErr : Option Bytes
  closeErr : Option Bytes
  editorStartErr : Option Bytes
  editorWaitErr : Option Bytes
  openErr : Option Bytes
  /-- The bytes `ioutil.ReadAll` returns (all it could read). -/
  readBuf : Bytes
  readErr : Option Bytes
  owner : LookupEnv
  cc : LookupEnv
  projects : LookupEnv
  marshalErr : Option Bytes
  arcStartErr : Option Bytes
  arcWaitErr : Option Bytes
  decodeErr : Option Bytes
  res : SubmitReply
  deriving DecidableEq, Repr

/-- The editing session, lines 48-83 of `main`: the text handed to the
parser.  The error of `ioutil.ReadAll` is assigned and not looked at. -/
def editSession (env : Env) : Run Bytes := do
  fatalIf 51 env.tempFileErr
  fatalIf 61 env.writeErr
  fatalIf 64 env.closeErr
  fatalIf 74 env.editorStartErr
  fatalIf 77 env.editorWaitErr
  fatalIf 81 env.openErr
  let (buf, _err) := (env.readBuf, env.readErr)
  pure buf

/-- Owner resolution, lines 126-138 of `main`. -/
def resolveOwner (data : GoMap Value) (env : LookupEnv) : Run (GoMap Value) :=
  match data.get (str "ownerPHID") with
  | none => .ok data
  | some (.str v) =>
    match getPHIDs v 64 env with
    | .error f => .error f
    | .ok phids =>
      if phids.length ≠ 1 then
        fatalf 134 (str "you should specify just 1 owner got: %d") [.d phids.length]
      else .ok (data.set (str "ownerPHID") (.str (phids.headD [])))
  | some _ => fatalf 129 (str "owner should be a string") []

/-- Resolution of the CC list, lines 140-147 of `main`. -/
def resolveCC (data : GoMap Value) (env : LookupEnv) : Run (GoMap Value) :=
  match data.get (str "ccPHIDs") with
  | none => .ok data
  | some (.str v) =>
    match getPHIDs v 64 env with
    | .error f => .error f
    | .ok phids => .ok (data.set (str "ccPHIDs") (.strs phids))
  | some _ => fatalf 143 (str "owner should be a string") []

/-- Resolution of the projects, lines 149-156 of `main`. -/
def resolveProjects (data : GoMap Value) (env : LookupEnv) : Run (GoMap Value) :=
  match data.get (str "projectPHIDs") with
  | none => .ok data
  | some (.str v) =>
    match getPHIDs v 35 env with
    | .error f => .error f
    | .ok phids => .ok (data.set (str "projectPHIDs") (.strs phids))
  | some _ => fatal 152 (str "projects should be a string (comma separated if multiple)")

/-- Lines 197-202 of `main`: the error check on the decoded reply of the
submission; on success the URI that is logged. -/
def submitDecoded (res : SubmitReply) : Run Bytes :=
  if res.error ≠ [] ∨ res.errorMessage ≠ [] then fatal 199 res.errorMessage
  else .ok res.uri

/-- What a run that reaches its end has done: the field map it sent to
`maniphest.createtask` and the URI it reported. -/
structure Report where
  sent : GoMap Value
  uri : Bytes
  deriving DecidableEq, Repr

/-- The function `main`. -/
def main (env : Env) : Run Report := do
  let buf ← editSession env
  let data ← parse buf
  let data ← resolveOwner data env.owner
  let data ← resolveCC data env.cc
  let data ← resolveProjects data env.projects
  fatalIf 160 env.marshalErr
  fatalIf 178 env.arcStartErr
  fatalIf 181 env.arcWaitErr
  fatalIf 195 env.decodeErr
  let uri ← submitDecoded env.res
  pure ⟨data, uri⟩

/-! ## The specification side

The definitions of this section follow the words of the specification of the
section parser (a sequence of fields, each the trimmed text between its label
and the next retained label) and of the round trip through the layout of the
template.  They are compared with the loops of `main` by the theorems below. -/

/-- Specification: where the value span of a key match ends, at the start of
the next retained label or at the end of the text. -/
def specSpanEnd (buf : Bytes) : List KeyMatch → Int
  | [] => (buf.length : Int)
  | m :: _ => m.index.1

/-- Specification: the value span of the key match `m` followed by the key
matches `rest`, the bytes from just after the colon of `m` to the end of the
span. -/
def specSpan (buf : Bytes) (m : KeyMatch) (rest : List KeyMatch) : Bytes :=
  (buf.drop (m.index.2 + 1).toNat).take (specSpanEnd buf rest - (m.index.2 + 1)).toNat

/-- Specification: one pair per retained label occurrence, in source order,
its key and its trimmed value span. -/
def specOccurrences (buf : Bytes) : List KeyMatch → List (Bytes × Bytes)
  | [] => []
  | m :: rest => (m.key, trimSpace (specSpan buf m rest)) :: specOccurrences buf rest

/-- Specification: the pairs whose value is not empty. -/
def specNonEmpty (fs : List (Bytes × Bytes)) : List (Bytes × Bytes) :=
  fs.filter (fun f => decide (f.2 ≠ []))

/-- The assignments `data[key] = value` of the pairing loop, one after the
other, for the pairs `fs`. -/
def store (fs : List (Bytes × Bytes)) (data : GoMap Value) : GoMap Value :=
  fs.foldl (fun d f => d.set f.1 (.str f.2)) data

/-- What the match loop appends for one match: the key match of a recognised
label, nothing for any other label. -/
def keyOf (buf : Bytes) (m : List Int) : Option KeyMatch :=
  match m with
  | [m0, m1] =>
    match keysToConduit.lookup (toLower ((buf.drop m0.toNat).take (m1 - 1 - m0).toNat)) with
    | some k => some ⟨(m0, m1 - 1), k⟩
    | none => none
  | _ => none

/-- The key matches the match loop retains on the text `buf`: the recognised
ones among the matches of the pattern, in source order. -/
def retained (buf : Bytes) : List KeyMatch := (findAllIndex buf).filterMap (keyOf buf)

/-- Specification: the field sequence of the text, the key and value of every
retained label occurrence with a non-empty trimmed value, in source order. -/
def specFields (buf : Bytes) : List (Bytes × Bytes) :=
  specNonEmpty (specOccurrences buf (retained buf))

/-- Specification: the label the template `tmpl` gives to an output key. -/
def specLabelOf (key : Bytes) : Bytes :=
  if key = str "title" then str "Title"
  else if key = str "description" then str "Description"
  else if key = str "ownerPHID" then str "Owner"
  else if key = str "ccPHIDs" then str "CC"
  else if key = str "projectPHIDs" then str "Projects"
  else if key = str "priority" then str "Priority"
  else if key = str "points" then str "Points"
  else key

/-- Specification: the fields written back in the layout of the template, for
each field, in order, its label, a colon, a newline, its value and a newline. -/
def specSerialize : List (Bytes × Bytes) → Bytes
  | [] => []
  | f :: fs => specLabelOf f.1 ++ 58 :: 10 :: (f.2 ++ 10 :: specSerialize fs)

/-- The value begins with a label of the table followed by a colon. -/
def startsWithLabel (v : Bytes) : Bool :=
  match matchLen v with
  | some n => (keysToConduit.lookup (toLower (v.take (n - 1)))).isSome
  | none => false

/-- The string-valued entries of a field map, as key and value pairs. -/
def entries (d : GoMap Value) : List (Bytes × Bytes) :=
  d.filterMap (fun p => match p.2 with
    | .str s => some (p.1, s)
    | .strs _ => none)

/-- The identifier a response holds for a token: the `phid` entry of the
object the token maps to, the empty string when there is none. -/
def phidOf (response : GoMap (GoMap Bytes)) (o : Bytes) : Bytes :=
  match response.get o with
  | some v => (v.get (str "phid")).getD []
  | none => []

/-! ## Auxiliary definitions for the proofs -/

/-- The scan without the `skip` counter: a match is reported at every line
start where the pattern matches. -/
def scan0 (pos : Nat) (ls : Bool) : Bytes → List (List Int)
  | [] => []
  | b :: rest =>
    (if ls then
      match matchLen (b :: rest) with
      | some n => [[(pos : Int), ((pos + n : Nat) : Int)]]
      | none => []
    else []) ++ scan0 (pos + 1) (b == 10) rest

/-- No newline among the first `k` bytes. -/
def noNL (k : Nat) (s : Bytes) : Prop := ∀ j, j < k → s.get? j ≠ some 10

/-- A match is well formed when it holds two indices that delimit a slice of
the text with room for the colon. -/
def ValidMatch (buf : Bytes) (m : List Int) : Prop :=
  ∃ s e1 : Int, m = [s, e1] ∧ 0 ≤ s ∧ s ≤ e1 - 1 ∧ e1 ≤ (buf.length : Int)

/-- Key matches that lie in the text, in source order, without overlap. -/
def Placed (buf : Bytes) (ms : List KeyMatch) : Prop :=
  List.Pairwise (fun a b : KeyMatch => a.index.2 + 1 ≤ b.index.1) ms ∧
  ∀ m ∈ ms, 0 ≤ m.index.1 ∧ m.index.1 < m.index.2 ∧ m.index.2 + 1 ≤ (buf.length : Int)

/-- The assertion `^` of the multi-line pattern holds at offset `p`. -/
def LineStart (buf : Bytes) (p : Nat) : Prop := p = 0 ∨ buf.get? (p - 1) = some 10

/-- The retained key matches of the text `s` that starts at offset `pos`:
the match loop applied to the matches of `s`, with the label read from `s`. -/
def keep (pos : Nat) (ls : Bool) : Bytes → List KeyMatch
  | [] => []
  | b :: rest =>
    (if ls then
      match matchLen (b :: rest) with
      | some n =>
        match keysToConduit.lookup (toLower ((b :: rest).take (n - 1))) with
        | some k => [⟨((pos : Int), ((pos + n : Nat) : Int) - 1), k⟩]
        | none => []
      | none => []
    else []) ++ keep (pos + 1) (b == 10) rest

/-- The key matches of the labels of a serialised field list that starts at
offset `pos`. -/
def labelMatches (pos : Nat) : List (Bytes × Bytes) → List KeyMatch
  | [] => []
  | f :: fs =>
    ⟨((pos : Int), ((pos + (specLabelOf f.1).length : Nat) : Int)), f.1⟩ ::
      labelMatches (pos + (specLabelOf f.1).length + f.2.length + 3) fs

/-- A lookup in which every external step succeeds and the decoded reply has
empty error fields and the given `response`. -/
def lookupOk (response : GoMap (GoMap Bytes)) : LookupEnv :=
  { marshalErr := none, startErr := none, waitErr := none, decodeErr := none,
    res := { error := [], errorMessage := [], response := response } }

/-- A run in which every external step succeeds: the editor leaves `text`,
the lookups answer `owner`, `cc`, `projects` and the submission answers `res`. -/
def envOk (text : Bytes) (owner cc projects : LookupEnv) (res : SubmitReply) : Env :=
  { tempFileErr := none, writeErr := none, closeErr := none, editorStartErr := none,
    editorWaitErr := none, openErr := none, readBuf := text, readErr := none,
    owner := owner, cc := cc, projects := projects, marshalErr := none,
    arcStartErr := none, arcWaitErr := none, decodeErr := none, res := res }

/-! ## The matches of the label pattern -/

theorem takeWhile_word_append (l t : Bytes) (hl : ∀ b ∈ l, isWord b = true) :
    (l ++ 58 :: t).takeWhile isWord = l := by
  induction l with
  | nil => simp [List.takeWhile, isWord]
  | cons a l ih =>
    have ha : isWord a = true := hl a (by simp)
    simp [List.takeWhile, ha]
    exact ih (fun b hb => hl b (by simp [hb]))

theorem matchLen_iff (s : Bytes) (n : Nat) :
    matchLen s = some n ↔
      ∃ l t, s = l ++ 58 :: t ∧ l ≠ [] ∧ (∀ b ∈ l, isWord b = true) ∧ n = l.length + 1 := by
  constructor
  · intro h
    unfold matchLen at h
    simp only at h
    split at h
    · rename_i hc
      obtain ⟨hw, hg⟩ := hc
      have hsplit := List.takeWhile_append_dropWhile isWord s
      refine ⟨s.takeWhile isWord, (s.dropWhile isWord).tail, ?_, ?_, ?_, ?_⟩
      · have : s.dropWhile isWord = 58 :: (s.dropWhile isWord).tail := by
          have h2 : (s.takeWhile isWord ++ s.dropWhile isWord).get? (s.takeWhile isWord).length = some 58 := by
            rw [hsplit]; exact hg
          rw [List.get?_eq_getElem?, List.getElem?_append_right (le_refl _)] at h2
          simp at h2
          cases hd : s.dropWhile isWord with
          | nil => simp [hd] at h2
          | cons x xs => simp [hd] at h2; simp [h2]
        rw [← this, hsplit]
      · intro h0; simp [h0] at hw
      · intro b hb; exact List.mem_takeWhile_imp hb
      · simpa using h.symm
    · exact absurd h (by simp)
  · rintro ⟨l, t, rfl, hne, hl, rfl⟩
    unfold matchLen
    simp only [takeWhile_word_append l t hl]
    have : 0 < l.length := List.length_pos.mpr hne
    have h2 : (l ++ 58 :: t).get? l.length = some 58 := by
      rw [List.get?_eq_getElem?, List.getElem?_append_right (le_refl _)]
      simp
    rw [if_pos ⟨this, h2⟩]

theorem noNL_match {s : Bytes} {n : Nat} (h : matchLen s = some n) : noNL n s := by
  obtain ⟨l, t, rfl, _, hl, rfl⟩ := (matchLen_iff s n).mp h
  intro j hj
  rw [List.get?_eq_getElem?]
  by_cases hjl : j < l.length
  · rw [List.getElem?_append_left hjl]
    intro hc
    have hm : (10 : Nat) ∈ l := List.getElem?_mem hc
    have := hl 10 hm
    simp [isWord] at this
  · have : j = l.length := by omega
    subst this
    rw [List.getElem?_append_right (le_refl _)]
    simp

theorem noNL_tail {k : Nat} {b : Nat} {rest : Bytes} (h : noNL (k + 1) (b :: rest)) :
    b ≠ 10 ∧ noNL k rest := by
  constructor
  · intro hb
    exact h 0 (by omega) (by simp [hb])
  · intro j hj
    have := h (j + 1) (by omega)
    simpa using this

theorem scan_eq_scan0 (s : Bytes) : ∀ (pos : Nat) (ls : Bool) (skip : Nat),
    noNL skip s → (0 < skip → ls = false) → scan pos ls skip s = scan0 pos ls s := by
  induction s with
  | nil => intro pos ls skip _ _; rfl
  | cons b rest ih =>
    intro pos ls skip hn hls
    unfold scan scan0
    by_cases hs : skip = 0
    · subst hs
      simp only [if_true]
      cases ls with
      | false => simp; exact ih _ _ _ (by intro j hj; omega) (by simp)
      | true =>
        simp only [if_true]
        cases hm : matchLen (b :: rest) with
        | none => simp; exact ih _ _ _ (by intro j hj; omega) (by simp)
        | some n =>
          simp only [List.singleton_append, List.cons.injEq, true_and]
          have hnl := noNL_match hm
          obtain ⟨l, t, _, hne, _, rfl⟩ := (matchLen_iff _ _).mp hm
          have ht := noNL_tail hnl
          have hb : (b == 10) = false := by simpa using ht.1
          rw [hb]
          exact ih _ _ _ (by simpa using ht.2) (by simp)
    · have hls2 := hls (by omega)
      subst hls2
      simp only [hs, if_false]
      obtain ⟨k, rfl⟩ : ∃ k, skip = k + 1 := ⟨skip - 1, by omega⟩
      have ht := noNL_tail hn
      have hb : (b == 10) = false := by simpa using ht.1
      simp only [hb, Nat.add_sub_cancel, Bool.false_eq_true, if_false, List.nil_append]
      exact ih _ _ _ ht.2 (by simp)

theorem findAllIndex_eq (buf : Bytes) : findAllIndex buf = scan0 0 true buf :=
  scan_eq_scan0 buf 0 true 0 (by intro j hj; omega) (by simp)

/-! ## The match loop is a filter over the matches -/

theorem slice_ok {buf : Bytes} {lo hi : Int} (h0 : 0 ≤ lo) (h1 : lo ≤ hi)
    (h2 : hi ≤ (buf.length : Int)) :
    slice buf lo hi = .ok ((buf.drop lo.toNat).take (hi - lo).toNat) := by
  unfold slice
  rw [if_pos ⟨h0, h1, h2⟩]

theorem matchLoop_filterMap (buf : Bytes) (res : List (List Int)) :
    ∀ acc : List KeyMatch, (∀ m ∈ res, ValidMatch buf m) →
      matchLoop buf res acc = .ok (acc ++ res.filterMap (keyOf buf)) := by
  induction res with
  | nil => intro acc _; simp [matchLoop]
  | cons m rest ih =>
    intro acc hv
    obtain ⟨s, e1, rfl, h0, h1, h2⟩ := hv m (by simp)
    have hrest : ∀ m ∈ rest, ValidMatch buf m := fun m hm => hv m (by simp [hm])
    unfold matchLoop
    simp only
    rw [slice_ok h0 h1 (by omega)]
    simp only
    cases hk : keysToConduit.lookup (toLower ((buf.drop s.toNat).take (e1 - 1 - s).toNat)) with
    | none =>
      simp only [List.filterMap_cons, keyOf, hk]
      exact ih acc hrest
    | some k =>
      simp only [List.filterMap_cons, keyOf, hk]
      rw [ih _ hrest]
      simp

/-! ## Where the matches are -/

theorem matchLen_le {s : Bytes} {n : Nat} (h : matchLen s = some n) :
    2 ≤ n ∧ n ≤ s.length := by
  obtain ⟨l, t, rfl, hne, _, rfl⟩ := (matchLen_iff s n).mp h
  have : 0 < l.length := List.length_pos.mpr hne
  simp
  omega

/-- Every match reported from offset `pos` on lies in the text scanned. -/
theorem scan0_bounds (s : Bytes) : ∀ (pos : Nat) (ls : Bool), ∀ m ∈ scan0 pos ls s,
    ∃ p n : Nat, m = [(p : Int), ((p + n : Nat) : Int)] ∧ pos ≤ p ∧ 2 ≤ n ∧
      p + n ≤ pos + s.length := by
  induction s with
  | nil => intro pos ls m hm; simp [scan0] at hm
  | cons b rest ih =>
    intro pos ls m hm
    unfold scan0 at hm
    rw [List.mem_append] at hm
    rcases hm with hm | hm
    · cases ls with
      | false => simp at hm
      | true =>
        simp only [if_true] at hm
        cases hl : matchLen (b :: rest) with
        | none => simp [hl] at hm
        | some n =>
          simp only [hl, List.mem_singleton] at hm
          have := matchLen_le hl
          exact ⟨pos, n, hm, le_refl _, this.1, by omega⟩
    · obtain ⟨p, n, rfl, h1, h2, h3⟩ := ih _ _ m hm
      refine ⟨p, n, rfl, by omega, h2, ?_⟩
      simp only [List.length_cons]
      omega

/-- After a stretch without newline, no match starts before the stretch ends. -/
theorem scan0_after (s : Bytes) : ∀ (pos : Nat) (ls : Bool) (k : Nat),
    noNL k s → (0 < k → ls = false) → ∀ m ∈ scan0 pos ls s,
    ∃ p n : Nat, m = [(p : Int), ((p + n : Nat) : Int)] ∧ pos + k ≤ p := by
  induction s with
  | nil => intro pos ls k _ _ m hm; simp [scan0] at hm
  | cons b rest ih =>
    intro pos ls k hn hls m hm
    by_cases hk : k = 0
    · subst hk
      obtain ⟨p, n, rfl, h1, _, _⟩ := scan0_bounds _ _ _ m hm
      exact ⟨p, n, rfl, by omega⟩
    · have hls2 := hls (by omega)
      subst hls2
      obtain ⟨j, rfl⟩ : ∃ j, k = j + 1 := ⟨k - 1, by omega⟩
      have ht := noNL_tail hn
      have hb : (b == 10) = false := by simpa using ht.1
      unfold scan0 at hm
      simp only [Bool.false_eq_true, if_false, List.nil_append, hb] at hm
      obtain ⟨p, n, rfl, h1⟩ := ih (pos + 1) false j ht.2 (by simp) m hm
      exact ⟨p, n, rfl, by omega⟩

/-- The matches are reported in source order and do not overlap. -/
theorem scan0_pairwise (s : Bytes) : ∀ (pos : Nat) (ls : Bool),
    List.Pairwise (fun a b : List Int => a.getD 1 0 ≤ b.getD 0 0) (scan0 pos ls s) := by
  induction s with
  | nil => intro pos ls; simp [scan0]
  | cons b rest ih =>
    intro pos ls
    unfold scan0
    rw [List.pairwise_append]
    refine ⟨?_, ih _ _, ?_⟩
    · cases ls with
      | false => simp
      | true =>
        simp only [if_true]
        cases matchLen (b :: rest) <;> simp
    · intro a ha c hc
      cases ls with
      | false => simp at ha
      | true =>
        simp only [if_true] at ha
        cases hl : matchLen (b :: rest) with
        | none => simp [hl] at ha
        | some n =>
          simp only [hl, List.mem_singleton] at ha
          subst ha
          have hnl := noNL_match hl
          have h2 := (matchLen_le hl).1
          obtain ⟨j, rfl⟩ : ∃ j, n = j + 1 := ⟨n - 1, by omega⟩
          have ht := noNL_tail hnl
          have hb : (b == 10) = false := by simpa using ht.1
          rw [hb] at hc
          obtain ⟨p, n', rfl, h1⟩ := scan0_after rest (pos + 1) false j ht.2 (by simp) c hc
          simp
          omega

theorem findAllIndex_valid (buf : Bytes) : ∀ m ∈ findAllIndex buf, ValidMatch buf m := by
  intro m hm
  rw [findAllIndex_eq] at hm
  obtain ⟨p, n, rfl, _, h2, h3⟩ := scan0_bounds buf 0 true m hm
  refine ⟨p, ((p + n : Nat) : Int), rfl, by omega, ?_, ?_⟩
  · push_cast; omega
  · push_cast
    have : (p : Int) + n ≤ 0 + buf.length := by exact_mod_cast h3
    omega

theorem matchLoop_retained (buf : Bytes) :
    matchLoop buf (findAllIndex buf) [] = .ok (retained buf) := by
  rw [matchLoop_filterMap buf _ [] (findAllIndex_valid buf)]
  rfl

/-! ## The pairing loop -/

theorem Placed.tail {buf : Bytes} {m : KeyMatch} {rest : List KeyMatch}
    (h : Placed buf (m :: rest)) : Placed buf rest :=
  ⟨(List.pairwise_cons.mp h.1).2, fun x hx => h.2 x (by simp [hx])⟩

theorem Placed.span {buf : Bytes} {m : KeyMatch} {rest : List KeyMatch}
    (h : Placed buf (m :: rest)) :
    0 ≤ m.index.2 + 1 ∧ m.index.2 + 1 ≤ specSpanEnd buf rest ∧
      specSpanEnd buf rest ≤ (buf.length : Int) := by
  have hm := h.2 m (by simp)
  refine ⟨by omega, ?_, ?_⟩
  · cases rest with
    | nil => simpa [specSpanEnd] using hm.2.2
    | cons m1 r => exact (List.pairwise_cons.mp h.1).1 m1 (by simp)
  · cases rest with
    | nil => simp [specSpanEnd]
    | cons m1 r =>
      have := h.2 m1 (by simp)
      simp only [specSpanEnd]
      omega

theorem pairStep_eq (buf : Bytes) (pre rest : List KeyMatch) (m : KeyMatch)
    (data : GoMap Value) (hp : Placed buf (m :: rest)) :
    pairStep buf (pre ++ m :: rest) pre.length m data =
      .ok (store (specNonEmpty [(m.key, trimSpace (specSpan buf m rest))]) data) := by
  obtain ⟨h0, h1, h2⟩ := hp.span
  have hends : (if (pre.length : Int) = ((pre ++ m :: rest).length : Int) - 1 then
        (Except.ok (buf.length : Int) : Run Int)
      else match (pre ++ m :: rest).get? (pre.length + 1) with
        | some m1 => .ok m1.index.1
        | none => .error (.panic "index out of range")) = .ok (specSpanEnd buf rest) := by
    cases rest with
    | nil => simp [specSpanEnd]
    | cons m1 r =>
      have hne : ¬ ((pre.length : Int) = ((pre ++ m :: m1 :: r).length : Int) - 1) := by
        simp only [List.length_append, List.length_cons]
        push_cast
        omega
      rw [if_neg hne]
      have : (pre ++ m :: m1 :: r).get? (pre.length + 1) = some m1 := by
        rw [List.get?_eq_getElem?, List.getElem?_append_right (by omega)]
        simp
      rw [this]
      simp [specSpanEnd]
  unfold pairStep
  simp only [hends]
  rw [slice_ok h0 h1 h2]
  simp only [specSpan, specNonEmpty, store]
  by_cases hv : trimSpace (List.take (specSpanEnd buf rest - (m.index.2 + 1)).toNat
      (List.drop (m.index.2 + 1).toNat buf)) = []
  · simp [hv]
  · simp [hv]

theorem store_append (a b : List (Bytes × Bytes)) (data : GoMap Value) :
    store (a ++ b) data = store b (store a data) := by
  simp [store, List.foldl_append]

theorem pairFrom_eq (buf : Bytes) (rest : List KeyMatch) :
    ∀ (pre : List KeyMatch) (data : GoMap Value), Placed buf rest →
      pairFrom buf (pre ++ rest) pre.length rest data =
        .ok (store (specNonEmpty (specOccurrences buf rest)) data) := by
  induction rest with
  | nil => intro pre data _; simp [pairFrom, specOccurrences, specNonEmpty, store]
  | cons m rest ih =>
    intro pre data hp
    unfold pairFrom
    rw [pairStep_eq buf pre rest m data hp]
    simp only
    have := ih (pre ++ [m]) (store (specNonEmpty [(m.key, trimSpace (specSpan buf m rest))]) data)
      hp.tail
    simp only [List.append_assoc, List.singleton_append, List.length_append,
      List.length_singleton] at this
    rw [this]
    have e : specOccurrences buf (m :: rest) =
        [(m.key, trimSpace (specSpan buf m rest))] ++ specOccurrences buf rest := rfl
    rw [e]
    simp only [specNonEmpty, List.filter_append]
    rw [store_append]

theorem keyOf_some {buf : Bytes} {m : List Int} {km : KeyMatch} (h : keyOf buf m = some km) :
    ∃ s e1 : Int, m = [s, e1] ∧ km.index = (s, e1 - 1) ∧
      keysToConduit.lookup (toLower ((buf.drop s.toNat).take (e1 - 1 - s).toNat)) =
        some km.key := by
  unfold keyOf at h
  split at h
  · rename_i m0 m1
    split at h
    · rename_i k hk
      simp only [Option.some.injEq] at h
      subst h
      exact ⟨m0, m1, rfl, rfl, hk⟩
    · exact absurd h (by simp)
  · exact absurd h (by simp)

theorem retained_placed (buf : Bytes) : Placed buf (retained buf) := by
  constructor
  · unfold retained
    rw [List.pairwise_filterMap]
    rw [findAllIndex_eq]
    refine List.Pairwise.imp_of_mem ?_ (scan0_pairwise buf 0 true)
    intro a c ha hc hac ka hka kc hkc
    simp only [Option.mem_def] at hka hkc
    obtain ⟨s, e1, rfl, hia, _⟩ := keyOf_some hka
    obtain ⟨s', e1', rfl, hic, _⟩ := keyOf_some hkc
    rw [hia, hic]
    simpa using hac
  · intro km hkm
    unfold retained at hkm
    rw [List.mem_filterMap] at hkm
    obtain ⟨m, hm, hk⟩ := hkm
    obtain ⟨s, e1, rfl, hi, _⟩ := keyOf_some hk
    rw [findAllIndex_eq] at hm
    obtain ⟨p, n, hpn, _, h2, h3⟩ := scan0_bounds buf 0 true _ hm
    simp only [List.cons.injEq, and_true] at hpn
    obtain ⟨rfl, rfl⟩ := hpn
    rw [hi]
    simp only
    push_cast
    have : (p : Int) + n ≤ 0 + buf.length := by exact_mod_cast h3
    omega

/-- The parser returns, and what it returns is the map obtained by storing
the fields in source order. -/
theorem parse_eq (buf : Bytes) : parse buf = .ok (store (specFields buf) []) := by
  unfold parse
  rw [matchLoop_retained]
  simp only [pairLoop]
  exact pairFrom_eq buf (retained buf) [] [] (retained_placed buf)

/-! ## Lookups in the stored map -/

theorem GoMap.get_set {β : Type} (m : GoMap β) (k : Bytes) (v : β) (k1 : Bytes) :
    (m.set k v).get k1 = if k1 = k then some v else m.get k1 := by
  induction m with
  | nil =>
    by_cases h : k1 = k
    · simp [GoMap.set, GoMap.get, List.lookup, h]
    · have : (k1 == k) = false := by simpa using h
      simp [GoMap.set, GoMap.get, List.lookup, h, this]
  | cons p rest ih =>
    obtain ⟨k0, v0⟩ := p
    unfold GoMap.set
    by_cases h0 : k0 = k
    · subst h0
      by_cases h : k1 = k0
      · simp [GoMap.get, List.lookup, h]
      · have : (k1 == k0) = false := by simpa using h
        simp [GoMap.get, List.lookup, h, this]
    · simp only [h0, if_false]
      by_cases h1 : k1 = k0
      · subst h1
        simp [GoMap.get, List.lookup, h0]
      · have : (k1 == k0) = false := by simpa using h1
        simp only [GoMap.get, List.lookup, this]
        exact ih

/-- The value a key holds after the assignments `fs`: that of the last
assignment to the key, or the earlier value when there is none. -/
theorem store_get (fs : List (Bytes × Bytes)) : ∀ (data : GoMap Value) (k : Bytes),
    (store fs data).get k =
      match (fs.filter (fun f => decide (f.1 = k))).getLast? with
      | some f => some (.str f.2)
      | none => data.get k := by
  induction fs using List.reverseRecOn with
  | nil => intro data k; simp [store]
  | append_singleton fs f ih =>
    intro data k
    rw [store_append]
    simp only [store, List.foldl_cons, List.foldl_nil]
    rw [GoMap.get_set]
    have ih2 := ih data k
    simp only [store] at ih2
    by_cases h : k = f.1
    · subst h
      simp [List.filter_append]
    · have h2 : ¬ f.1 = k := fun e => h e.symm
      simp only [h, if_false, List.filter_append]
      rw [ih2]
      simp [h2]

/-! ## Which positions match -/

theorem scan0_mem (s : Bytes) : ∀ (pos : Nat) (ls : Bool) (m : List Int),
    m ∈ scan0 pos ls s ↔
      ∃ i n : Nat, m = [((pos + i : Nat) : Int), ((pos + i + n : Nat) : Int)] ∧
        matchLen (s.drop i) = some n ∧
        ((i = 0 ∧ ls = true) ∨ (0 < i ∧ s.get? (i - 1) = some 10)) := by
  induction s with
  | nil =>
    intro pos ls m
    simp only [scan0, List.not_mem_nil, List.drop_nil, false_iff]
    rintro ⟨i, n, _, h, _⟩
    simp [matchLen] at h
  | cons b rest ih =>
    intro pos ls m
    unfold scan0
    rw [List.mem_append, ih]
    constructor
    · rintro (h | ⟨i, n, rfl, hm, hl⟩)
      · cases ls with
        | false => simp at h
        | true =>
          simp only [if_true] at h
          cases hl : matchLen (b :: rest) with
          | none => simp [hl] at h
          | some n =>
            simp only [hl, List.mem_singleton] at h
            exact ⟨0, n, by simpa using h, by simpa using hl, Or.inl ⟨rfl, rfl⟩⟩
      · refine ⟨i + 1, n, ?_, by simpa using hm, Or.inr ⟨by omega, ?_⟩⟩
        · simp only [List.cons.injEq, and_true]
          constructor <;> (push_cast; omega)
        · rcases hl with ⟨rfl, hb⟩ | ⟨hi, hg⟩
          · simpa using hb
          · obtain ⟨j, rfl⟩ : ∃ j, i = j + 1 := ⟨i - 1, by omega⟩
            simpa using hg
    · rintro ⟨i, n, rfl, hm, hl⟩
      rcases hl with ⟨rfl, rfl⟩ | ⟨hi, hg⟩
      · left
        simp only [List.drop_zero] at hm
        simp [hm]
      · right
        obtain ⟨j, rfl⟩ : ∃ j, i = j + 1 := ⟨i - 1, by omega⟩
        refine ⟨j, n, ?_, by simpa using hm, ?_⟩
        · simp only [List.cons.injEq, and_true]
          constructor <;> (push_cast; omega)
        · by_cases hj : j = 0
          · subst hj
            left
            simpa using hg
          · right
            obtain ⟨j1, rfl⟩ : ∃ j1, j = j1 + 1 := ⟨j - 1, by omega⟩
            exact ⟨by omega, by simpa using hg⟩

/-- The matches of the pattern are exactly the line starts followed by a
non-empty run of word bytes and a colon. -/
theorem findAllIndex_mem (buf : Bytes) (m : List Int) :
    m ∈ findAllIndex buf ↔
      ∃ p n : Nat, m = [(p : Int), ((p + n : Nat) : Int)] ∧ LineStart buf p ∧
        matchLen (buf.drop p) = some n := by
  rw [findAllIndex_eq, scan0_mem]
  constructor
  · rintro ⟨i, n, rfl, hm, hl⟩
    refine ⟨i, n, by simp, ?_, hm⟩
    rcases hl with ⟨rfl, _⟩ | ⟨_, hg⟩
    · exact Or.inl rfl
    · exact Or.inr hg
  · rintro ⟨p, n, rfl, hl, hm⟩
    refine ⟨p, n, by simp, hm, ?_⟩
    by_cases hp : p = 0
    · exact Or.inl ⟨hp, rfl⟩
    · rcases hl with h | h
      · exact absurd h hp
      · exact Or.inr ⟨by omega, h⟩

/-- The retained key matches are exactly the line starts that carry a label
of the table followed by a colon. -/
theorem retained_mem (buf : Bytes) (km : KeyMatch) :
    km ∈ retained buf ↔
      ∃ (p : Nat) (l t : Bytes), buf.drop p = l ++ 58 :: t ∧ l ≠ [] ∧
        (∀ b ∈ l, isWord b = true) ∧ LineStart buf p ∧
        km.index = ((p : Int), ((p + l.length : Nat) : Int)) ∧
        keysToConduit.lookup (toLower l) = some km.key := by
  unfold retained
  rw [List.mem_filterMap]
  constructor
  · rintro ⟨m, hm, hk⟩
    obtain ⟨p, n, rfl, hls, hml⟩ := (findAllIndex_mem buf m).mp hm
    obtain ⟨l, t, hd, hne, hw, rfl⟩ := (matchLen_iff _ _).mp hml
    obtain ⟨s, e1, hse, hi, hlk⟩ := keyOf_some hk
    simp only [List.cons.injEq, and_true] at hse
    obtain ⟨rfl, rfl⟩ := hse
    refine ⟨p, l, t, hd, hne, hw, hls, ?_, ?_⟩
    · rw [hi]; simp only [Prod.mk.injEq, true_and]; push_cast; omega
    · have e : (((p + (l.length + 1) : Nat) : Int) - 1 - (p : Int)).toNat = l.length := by
        push_cast; omega
      rw [e] at hlk
      simpa [hd] using hlk
  · rintro ⟨p, l, t, hd, hne, hw, hls, hi, hlk⟩
    refine ⟨[(p : Int), ((p + (l.length + 1) : Nat) : Int)], ?_, ?_⟩
    · exact (findAllIndex_mem buf _).mpr
        ⟨p, l.length + 1, rfl, hls, (matchLen_iff _ _).mpr ⟨l, t, hd, hne, hw, rfl⟩⟩
    · unfold keyOf
      have e : (((p + (l.length + 1) : Nat) : Int) - 1 - (p : Int)).toNat = l.length := by
        push_cast; omega
      simp only [e, Int.toNat_ofNat, hd, List.take_left', hlk]
      obtain ⟨idx, key⟩ := km
      simp only at hi hlk
      subst hi
      simp only [KeyMatch.mk.injEq, Prod.mk.injEq, true_and, Option.some.injEq]
      refine ⟨?_, trivial⟩
      push_cast; omega

/-! ## The value spans -/

theorem occurrences_get (buf : Bytes) (before : List KeyMatch) :
    ∀ (m : KeyMatch) (after : List KeyMatch),
      (specOccurrences buf (before ++ m :: after)).get? before.length =
        some (m.key, trimSpace (specSpan buf m after)) := by
  induction before with
  | nil => intro m after; simp [specOccurrences]
  | cons a before ih =>
    intro m after
    simp only [List.cons_append, specOccurrences, List.length_cons, List.get?_cons_succ]
    exact ih m after

theorem occurrences_keys (buf : Bytes) (ms : List KeyMatch) :
    (specOccurrences buf ms).map Prod.fst = ms.map KeyMatch.key := by
  induction ms with
  | nil => rfl
  | cons m rest ih => simp [specOccurrences, ih]

theorem Placed.suffix {buf : Bytes} (before : List KeyMatch) {after : List KeyMatch}
    (h : Placed buf (before ++ after)) : Placed buf after := by
  induction before with
  | nil => simpa using h
  | cons a before ih => exact ih (Placed.tail h)

/-- The text around a retained label: the label sits at a line start before
its colon, and its value span runs from just after the colon to the start of
the next retained label, or to the end of the text. -/
theorem span_decomposition (buf : Bytes) (before : List KeyMatch) (m : KeyMatch)
    (after : List KeyMatch) (h : retained buf = before ++ m :: after) :
    ∃ pre label post : Bytes,
      buf = pre ++ label ++ 58 :: specSpan buf m after ++ post ∧
      m.index = ((pre.length : Int), ((pre.length + label.length : Nat) : Int)) ∧
      LineStart buf pre.length ∧ label ≠ [] ∧ (∀ b ∈ label, isWord b = true) ∧
      keysToConduit.lookup (toLower label) = some m.key ∧
      specSpanEnd buf after = ((pre ++ label ++ 58 :: specSpan buf m after).length : Int) ∧
      (after = [] → post = []) := by
  have hmem : m ∈ retained buf := by rw [h]; simp
  obtain ⟨p, l, t, hd, hne, hw, hls, hi, hlk⟩ := (retained_mem buf m).mp hmem
  have hpl : Placed buf (m :: after) := by
    have := retained_placed buf
    rw [h] at this
    exact Placed.suffix before this
  obtain ⟨h0, h1, h2⟩ := hpl.span
  have hlen : p + (l.length + 1 + t.length) = buf.length := by
    have := congrArg List.length hd
    simp only [List.length_drop, List.length_append, List.length_cons] at this
    omega
  have hp : p ≤ buf.length := by omega
  have hbuf : buf = buf.take p ++ (l ++ 58 :: t) := by
    rw [← hd, List.take_append_drop]
  have hi2 : m.index.2 + 1 = ((p + l.length + 1 : Nat) : Int) := by
    rw [hi]; push_cast; ring
  obtain ⟨k, hk⟩ : ∃ k : Nat, specSpanEnd buf after = ((p + l.length + 1 + k : Nat) : Int) := by
    refine ⟨(specSpanEnd buf after - (p + l.length + 1 : Nat)).toNat, ?_⟩
    rw [hi2] at h1
    push_cast at h1 ⊢
    omega
  have hkt : k ≤ t.length := by
    rw [hk] at h2
    have : p + l.length + 1 + k ≤ buf.length := by exact_mod_cast h2
    omega
  have hspan : specSpan buf m after = t.take k := by
    unfold specSpan
    rw [hi2, hk]
    have e1 : (((p + l.length + 1 + k : Nat) : Int) - ((p + l.length + 1 : Nat) : Int)).toNat = k := by
      push_cast; omega
    rw [e1, Int.toNat_ofNat]
    have e2 : buf.drop (p + l.length + 1) = t := by
      have : p + l.length + 1 = p + (l.length + 1) := by omega
      rw [this, ← List.drop_drop, hd]
      simp
    rw [e2]
  have hplen : (buf.take p).length = p := by simp [hp]
  refine ⟨buf.take p, l, t.drop k, ?_, ?_, ?_, hne, hw, hlk, ?_, ?_⟩
  · rw [hspan]
    conv_lhs => rw [hbuf]
    simp [List.take_append_drop]
  · rw [hi, hplen]
  · rw [hplen]; exact hls
  · rw [hk, hspan]
    simp only [List.length_append, List.length_cons, List.length_take, hplen]
    have : min k t.length = k := by omega
    rw [this]
    push_cast
    omega
  · intro ha
    subst ha
    simp only [specSpanEnd] at hk
    have : buf.length = p + l.length + 1 + k := by exact_mod_cast hk
    have : k = t.length := by omega
    subst this
    simp

theorem lookup_cons_iff {β : Type} (a : Bytes) (b : β) (l : List (Bytes × β)) (x : Bytes) (k : β)
    (hn : ∀ p ∈ l, p.1 ≠ a) :
    List.lookup x ((a, b) :: l) = some k ↔ (x, k) = (a, b) ∨ List.lookup x l = some k := by
  by_cases h : x = a
  · subst h
    simp only [List.lookup, beq_self_eq_true, Option.some.injEq, Prod.mk.injEq, true_and]
    constructor
    · intro e; exact Or.inl e.symm
    · rintro (e | e)
      · exact e.symm
      · exfalso
        induction l with
        | nil => simp [List.lookup] at e
        | cons q r ih =>
          obtain ⟨qa, qb⟩ := q
          have hq : qa ≠ x := hn (qa, qb) (by simp)
          have hq2 : (x == qa) = false := by simpa using fun e : x = qa => hq e.symm
          simp only [List.lookup, hq2] at e
          exact ih (fun p hp => hn p (by simp [hp])) e
  · have h2 : (x == a) = false := by simpa using h
    simp [List.lookup, h2, h]

theorem lookup_table (x k : Bytes) :
    keysToConduit.lookup x = some k ↔
      (x, k) ∈ [(str "title", str "title"), (str "description", str "description"),
        (str "owner", str "ownerPHID"), (str "cc", str "ccPHIDs"),
        (str "projects", str "projectPHIDs"), (str "priority", str "priority"),
        (str "points", str "points")] := by
  unfold keysToConduit
  rw [lookup_cons_iff _ _ _ _ _ (by decide), lookup_cons_iff _ _ _ _ _ (by decide),
    lookup_cons_iff _ _ _ _ _ (by decide), lookup_cons_iff _ _ _ _ _ (by decide),
    lookup_cons_iff _ _ _ _ _ (by decide), lookup_cons_iff _ _ _ _ _ (by decide),
    lookup_cons_iff _ _ _ _ _ (by decide)]
  simp only [List.lookup, List.mem_cons, List.mem_singleton, List.not_mem_nil, or_false]
  tauto

/-! ## Labels and keys -/

theorem toLower_of_spelling (label t : Bytes) (ht : ∀ b ∈ t, 97 ≤ b ∧ b ≤ 122)
    (h : List.Forall₂ (fun a b : Nat => a = b ∨ (65 ≤ a ∧ a ≤ 90 ∧ a + 32 = b)) label t) :
    toLower label = t := by
  induction h with
  | nil => rfl
  | @cons a b l1 l2 hab _ ih =>
    have hb := ht b (by simp)
    have ih2 := ih (fun x hx => ht x (by simp [hx]))
    unfold toLower at ih2 ⊢
    simp only [List.map_cons, ih2, List.cons.injEq, and_true]
    rcases hab with rfl | ⟨h1, h2, h3⟩
    · rw [if_neg (by omega)]
    · rw [if_pos ⟨h1, h2⟩, h3]

theorem retained_key_mem (buf : Bytes) (km : KeyMatch) (h : km ∈ retained buf) :
    km.key ∈ [str "title", str "description", str "ownerPHID", str "ccPHIDs",
      str "projectPHIDs", str "priority", str "points"] := by
  obtain ⟨p, l, t, _, _, _, _, _, hlk⟩ := (retained_mem buf km).mp h
  have := (lookup_table _ _).mp hlk
  simp only [List.mem_cons, Prod.mk.injEq, List.mem_singleton, List.not_mem_nil, or_false] at this
  simp only [List.mem_cons, List.mem_singleton, List.not_mem_nil, or_false]
  tauto

theorem parse_get_some (buf : Bytes) (k : Bytes) (v : Value)
    (h : (store (specFields buf) []).get k = some v) :
    ∃ f ∈ specOccurrences buf (retained buf), f.1 = k ∧ f.2 ≠ [] ∧ v = .str f.2 := by
  rw [store_get] at h
  cases hl : ((specFields buf).filter (fun f => decide (f.1 = k))).getLast? with
  | none => rw [hl] at h; simp [GoMap.get] at h
  | some f =>
    rw [hl] at h
    simp only [Option.some.injEq] at h
    have hm : f ∈ (specFields buf).filter (fun f => decide (f.1 = k)) := List.mem_of_getLast?_eq_some hl
    rw [List.mem_filter] at hm
    obtain ⟨hf, hk⟩ := hm
    unfold specFields specNonEmpty at hf
    rw [List.mem_filter] at hf
    exact ⟨f, hf.1, by simpa using hk, by simpa using hf.2, h.symm⟩

/-! ## Trimming -/

section Strip

variable (p1 : Nat → Bool) (p2 : Nat → Nat → Bool) (p3 : Nat → Nat → Nat → Bool)

theorem strip_one {a : Nat} (t : Bytes) (h : p1 a = true) :
    strip p1 p2 p3 (a :: t) = strip p1 p2 p3 t := by
  conv_lhs => unfold strip
  rw [if_pos h]

theorem strip_two {a b : Nat} (t : Bytes) (h1 : ¬ p1 a = true) (h2 : p2 a b = true) :
    strip p1 p2 p3 (a :: b :: t) = strip p1 p2 p3 t := by
  conv_lhs => unfold strip
  rw [if_neg h1]
  simp only [h2, if_true]

theorem strip_three {a b c : Nat} (t : Bytes) (h1 : ¬ p1 a = true) (h2 : ¬ p2 a b = true)
    (h3 : p3 a b c = true) :
    strip p1 p2 p3 (a :: b :: c :: t) = strip p1 p2 p3 t := by
  conv_lhs => unfold strip
  rw [if_neg h1]
  simp only
  rw [if_neg h2]
  simp only [h3, if_true]

theorem strip_keep1 {a : Nat} (h1 : ¬ p1 a = true) : strip p1 p2 p3 [a] = [a] := by
  conv_lhs => unfold strip
  rw [if_neg h1]

theorem strip_keep2 {a b : Nat} (h1 : ¬ p1 a = true) (h2 : ¬ p2 a b = true) :
    strip p1 p2 p3 [a, b] = [a, b] := by
  conv_lhs => unfold strip
  rw [if_neg h1]
  simp only
  rw [if_neg h2]

theorem strip_keep3 {a b c : Nat} (t : Bytes) (h1 : ¬ p1 a = true) (h2 : ¬ p2 a b = true)
    (h3 : ¬ p3 a b c = true) :
    strip p1 p2 p3 (a :: b :: c :: t) = a :: b :: c :: t := by
  conv_lhs => unfold strip
  rw [if_neg h1]
  simp only
  rw [if_neg h2, if_neg h3]

/-- What `strip` returns is a suffix of its argument. -/
theorem strip_suffix (s : Bytes) : ∃ w, s = w ++ strip p1 p2 p3 s := by
  induction s using strip.induct p1 p2 p3 with
  | case1 => exact ⟨[], rfl⟩
  | case2 a t0 h ih =>
    obtain ⟨w, hw⟩ := ih
    exact ⟨a :: w, by rw [strip_one p1 p2 p3 t0 h]; simp [← hw]⟩
  | case3 a h => exact ⟨[], by rw [strip_keep1 p1 p2 p3 h]; rfl⟩
  | case4 a h1 b t1 h2 ih =>
    obtain ⟨w, hw⟩ := ih
    exact ⟨a :: b :: w, by rw [strip_two p1 p2 p3 t1 h1 h2]; simp [← hw]⟩
  | case5 a h1 b h2 => exact ⟨[], by rw [strip_keep2 p1 p2 p3 h1 h2]; rfl⟩
  | case6 a h1 b h2 c t2 h3 ih =>
    obtain ⟨w, hw⟩ := ih
    exact ⟨a :: b :: c :: w, by rw [strip_three p1 p2 p3 t2 h1 h2 h3]; simp [← hw]⟩
  | case7 a h1 b h2 c t2 h3 => exact ⟨[], by rw [strip_keep3 p1 p2 p3 t2 h1 h2 h3]; rfl⟩

/-- Stripping twice is stripping once. -/
theorem strip_idem (s : Bytes) :
    strip p1 p2 p3 (strip p1 p2 p3 s) = strip p1 p2 p3 s := by
  induction s using strip.induct p1 p2 p3 with
  | case1 => rfl
  | case2 a t0 h ih => rw [strip_one p1 p2 p3 t0 h]; exact ih
  | case3 a h => rw [strip_keep1 p1 p2 p3 h, strip_keep1 p1 p2 p3 h]
  | case4 a h1 b t1 h2 ih => rw [strip_two p1 p2 p3 t1 h1 h2]; exact ih
  | case5 a h1 b h2 => rw [strip_keep2 p1 p2 p3 h1 h2, strip_keep2 p1 p2 p3 h1 h2]
  | case6 a h1 b h2 c t2 h3 ih => rw [strip_three p1 p2 p3 t2 h1 h2 h3]; exact ih
  | case7 a h1 b h2 c t2 h3 =>
    rw [strip_keep3 p1 p2 p3 t2 h1 h2 h3, strip_keep3 p1 p2 p3 t2 h1 h2 h3]

/-- The first bytes of a stripped text are not a group that `strip` removes. -/
theorem strip_head (s : Bytes) :
    match strip p1 p2 p3 s with
    | [] => True
    | [a] => ¬ p1 a = true
    | [a, b] => ¬ p1 a = true ∧ ¬ p2 a b = true
    | a :: b :: c :: _ => ¬ p1 a = true ∧ ¬ p2 a b = true ∧ ¬ p3 a b c = true := by
  induction s using strip.induct p1 p2 p3 with
  | case1 => simp [strip]
  | case2 a t0 h ih => rw [strip_one p1 p2 p3 t0 h]; exact ih
  | case3 a h => rw [strip_keep1 p1 p2 p3 h]; exact h
  | case4 a h1 b t1 h2 ih => rw [strip_two p1 p2 p3 t1 h1 h2]; exact ih
  | case5 a h1 b h2 => rw [strip_keep2 p1 p2 p3 h1 h2]; exact ⟨h1, h2⟩
  | case6 a h1 b h2 c t2 h3 ih => rw [strip_three p1 p2 p3 t2 h1 h2 h3]; exact ih
  | case7 a h1 b h2 c t2 h3 => rw [strip_keep3 p1 p2 p3 t2 h1 h2 h3]; exact ⟨h1, h2, h3⟩

end Strip

/-- A trimmed text lies inside the text it was trimmed from. -/
theorem trimSpace_infix (s : Bytes) : ∃ w1 w2, s = w1 ++ trimSpace s ++ w2 := by
  obtain ⟨w1, h1⟩ := strip_suffix isSpace1 isSpace2 isSpace3 s
  obtain ⟨w2, h2⟩ := strip_suffix isSpace1 (fun a b => isSpace2 b a)
    (fun a b c => isSpace3 c b a) (trimLeft s).reverse
  refine ⟨w1, w2.reverse, ?_⟩
  have h3 : trimLeft s = trimSpace s ++ w2.reverse := by
    have := congrArg List.reverse h2
    simpa [trimSpace, trimRight] using this
  unfold trimLeft at h3
  rw [List.append_assoc, ← h3]
  exact h1

/-- A prefix of a left-trimmed text, followed by a newline, is left-trimmed. -/
theorem trimLeft_prefix_newline (y v w : Bytes) (hy : trimLeft y = y) (hv : v ≠ [])
    (hp : y = v ++ w) : trimLeft (v ++ [10]) = v ++ [10] := by
  have hh := strip_head isSpace1 isSpace2 isSpace3 y
  unfold trimLeft at hy ⊢
  rw [hy, hp] at hh
  match v, hv with
  | [a], _ =>
    have h1 : ¬ isSpace1 a = true := by
      cases w with
      | nil => simpa using hh
      | cons b w =>
        cases w with
        | nil => simp at hh; simp [hh.1]
        | cons c w => simp at hh; simp [hh.1]
    exact strip_keep2 _ _ _ h1 (by simp [isSpace2])
  | [a, b], _ =>
    have h12 : ¬ isSpace1 a = true ∧ ¬ isSpace2 a b = true := by
      cases w with
      | nil => simpa using hh
      | cons c w => simp at hh; simp [hh.1, hh.2.1]
    exact strip_keep3 _ _ _ [] h12.1 h12.2 (by simp [isSpace3])
  | a :: b :: c :: t, _ =>
    simp only [List.cons_append] at hh
    exact strip_keep3 _ _ _ _ hh.1 hh.2.1 hh.2.2

/-- A non-empty trimmed value comes back unchanged when it is trimmed again
between two newlines. -/
theorem trimSpace_wrap (s : Bytes) (hne : trimSpace s ≠ []) :
    trimSpace (10 :: trimSpace s ++ [10]) = trimSpace s := by
  obtain ⟨w2, h2⟩ := strip_suffix isSpace1 (fun a b => isSpace2 b a)
    (fun a b c => isSpace3 c b a) (trimLeft s).reverse
  have h3 : trimLeft s = trimSpace s ++ w2.reverse := by
    have := congrArg List.reverse h2
    simpa [trimSpace, trimRight] using this
  have hl : trimLeft (trimLeft s) = trimLeft s := strip_idem _ _ _ s
  have hA : trimLeft (10 :: trimSpace s ++ [10]) = trimSpace s ++ [10] := by
    have : trimLeft (10 :: trimSpace s ++ [10]) = trimLeft (trimSpace s ++ [10]) := by
      unfold trimLeft
      exact strip_one _ _ _ _ (by decide)
    rw [this]
    exact trimLeft_prefix_newline (trimLeft s) (trimSpace s) w2.reverse hl hne h3
  have hB : trimRight (trimSpace s ++ [10]) = trimSpace s := by
    unfold trimRight
    rw [List.reverse_append, List.reverse_singleton, List.singleton_append,
      strip_one _ _ _ _ (by decide)]
    have : (trimSpace s).reverse = strip isSpace1 (fun a b => isSpace2 b a)
        (fun a b c => isSpace3 c b a) (trimLeft s).reverse := by
      simp [trimSpace, trimRight]
    rw [this, strip_idem, ← this, List.reverse_reverse]
  show trimRight (trimLeft (10 :: trimSpace s ++ [10])) = trimSpace s
  rw [hA, hB]

/-! ## Re-parsing the serialised fields -/

/-- A match of the label pattern never reaches past a newline. -/
theorem matchLen_newline (x r : Bytes) : matchLen (x ++ 10 :: r) = matchLen x := by
  have key : ∀ n, matchLen (x ++ 10 :: r) = some n ↔ matchLen x = some n := by
    intro n
    rw [matchLen_iff, matchLen_iff]
    constructor
    · rintro ⟨l, t, h, hne, hw, rfl⟩
      rcases List.append_eq_append_iff.mp h with ⟨a, hl, ha⟩ | ⟨c, hx, hc⟩
      · exfalso
        cases a with
        | nil => simp at ha
        | cons a0 a1 =>
          simp only [List.cons_append, List.cons.injEq] at ha
          have : isWord 10 = true := hw 10 (by rw [hl, ← ha.1]; simp)
          simp [isWord] at this
      · cases c with
        | nil => simp at hc
        | cons c0 c1 =>
          simp only [List.cons_append, List.cons.injEq] at hc
          refine ⟨l, c1, ?_, hne, hw, rfl⟩
          rw [hx, ← hc.1]
    · rintro ⟨l, t, rfl, hne, hw, rfl⟩
      exact ⟨l, t ++ 10 :: r, by simp, hne, hw, rfl⟩
  cases h : matchLen x with
  | some n => exact (key n).mpr h
  | none =>
    cases h2 : matchLen (x ++ 10 :: r) with
    | none => rfl
    | some n => rw [(key n).mp h2] at h; exact absurd h (by simp)

theorem keep_cons (pos : Nat) (ls : Bool) (b : Nat) (rest : Bytes) :
    keep pos ls (b :: rest) =
      (if ls then
        match matchLen (b :: rest) with
        | some n =>
          match keysToConduit.lookup (toLower ((b :: rest).take (n - 1))) with
          | some k => [⟨((pos : Int), ((pos + n : Nat) : Int) - 1), k⟩]
          | none => []
        | none => []
      else []) ++ keep (pos + 1) (b == 10) rest := by
  conv_lhs => unfold keep

theorem keep_eq (s : Bytes) : ∀ (pre : Bytes) (ls : Bool),
    (scan0 pre.length ls s).filterMap (keyOf (pre ++ s)) = keep pre.length ls s := by
  induction s with
  | nil => intro pre ls; simp [scan0, keep]
  | cons b rest ih =>
    intro pre ls
    unfold scan0 keep
    rw [List.filterMap_append]
    have hrec := ih (pre ++ [b]) (b == 10)
    simp only [List.length_append, List.length_singleton, List.append_assoc,
      List.singleton_append] at hrec
    rw [hrec]
    congr 1
    cases ls with
    | false => simp
    | true =>
      simp only [if_true]
      cases hm : matchLen (b :: rest) with
      | none => simp
      | some n =>
        have hn := matchLen_le hm
        have e1 : (((pre.length + n : Nat) : Int) - 1 - (pre.length : Int)).toNat = n - 1 := by
          push_cast; omega
        simp only [List.filterMap_cons, List.filterMap_nil, keyOf, e1, Int.toNat_ofNat,
          List.drop_left']
        cases keysToConduit.lookup (toLower ((b :: rest).take (n - 1))) <;> rfl

theorem retained_eq_keep (buf : Bytes) : retained buf = keep 0 true buf := by
  unfold retained
  rw [findAllIndex_eq]
  exact keep_eq buf [] true

/-- Nothing is retained inside a line once its start has been passed. -/
theorem keep_skip (a : Bytes) : ∀ (pos : Nat) (x : Bytes), (∀ b ∈ a, b ≠ 10) →
    keep pos false (a ++ 10 :: x) = keep (pos + a.length + 1) true x := by
  induction a with
  | nil => intro pos x _; simp [keep]
  | cons c a ih =>
    intro pos x h
    have hc : (c == 10) = false := by simpa using h c (by simp)
    rw [List.cons_append, keep_cons]
    simp only [hc, Bool.false_eq_true, if_false, List.nil_append]
    rw [ih _ _ (fun b hb => h b (by simp [hb]))]
    simp only [List.length_cons]
    congr 1
    omega

/-- A line that starts with a label of the table and its colon and holds
nothing else gives one key match. -/
theorem keep_label (l : Bytes) (k : Bytes) (pos : Nat) (x : Bytes) (hne : l ≠ [])
    (hw : ∀ b ∈ l, isWord b = true) (hk : keysToConduit.lookup (toLower l) = some k) :
    keep pos true (l ++ 58 :: 10 :: x) =
      ⟨((pos : Int), ((pos + l.length : Nat) : Int)), k⟩ :: keep (pos + l.length + 2) true x := by
  cases l with
  | nil => exact absurd rfl hne
  | cons b l1 =>
    have hm : matchLen (b :: l1 ++ 58 :: 10 :: x) = some ((b :: l1).length + 1) :=
      (matchLen_iff _ _).mpr ⟨b :: l1, 10 :: x, rfl, hne, hw, rfl⟩
    have hb : (b == 10) = false := by
      have := hw b (by simp)
      have h10 : b ≠ 10 := by
        intro e; subst e; simp [isWord] at this
      simpa using h10
    have hnl : ∀ c ∈ l1 ++ [58], c ≠ 10 := by
      intro c hc
      rw [List.mem_append] at hc
      rcases hc with hc | hc
      · have := hw c (by simp [hc])
        intro e; subst e; simp [isWord] at this
      · simp at hc; omega
    have hskip := keep_skip (l1 ++ [58]) (pos + 1) x hnl
    simp only [List.append_assoc, List.singleton_append, List.length_append,
      List.length_singleton] at hskip
    have htake : (b :: (l1 ++ 58 :: 10 :: x)).take ((b :: l1).length + 1 - 1) = b :: l1 := by
      have : (b :: (l1 ++ 58 :: 10 :: x)) = (b :: l1) ++ 58 :: 10 :: x := rfl
      rw [this]
      simp
    simp only [List.cons_append] at hm ⊢
    rw [keep_cons]
    simp only [if_true, hm, htake, hk, hb, List.singleton_append, List.cons.injEq]
    refine ⟨?_, ?_⟩
    · simp only [KeyMatch.mk.injEq, Prod.mk.injEq, true_and, and_true]
      push_cast
      omega
    · rw [hskip]
      simp only [List.length_cons]
      congr 1
      omega

/-- The key matches of a text are those of its first line followed by those
of the rest. -/
theorem keep_line (a : Bytes) : ∀ (pos : Nat) (ls : Bool) (r : Bytes),
    keep pos ls (a ++ 10 :: r) = keep pos ls (a ++ [10]) ++ keep (pos + a.length + 1) true r := by
  induction a with
  | nil =>
    intro pos ls r
    have h1 : matchLen (10 :: r) = none := by
      have := matchLen_newline [] r
      simpa [matchLen] using this
    have h2 : matchLen [10] = none := by decide
    cases ls <;> simp [keep, h1, h2]
  | cons b a ih =>
    intro pos ls r
    have hm : matchLen (b :: a ++ 10 :: r) = matchLen (b :: a ++ [10]) := by
      have h1 := matchLen_newline (b :: a) r
      have h2 := matchLen_newline (b :: a) []
      rw [h1, h2]
    have hrec := ih (pos + 1) (b == 10) r
    simp only [List.cons_append] at hm hrec ⊢
    rw [keep_cons, keep_cons pos ls b (a ++ [10]), hrec, hm]
    simp only [List.length_cons]
    have e : pos + 1 + a.length + 1 = pos + (a.length + 1) + 1 := by omega
    rw [e, ← List.append_assoc]
    congr 2
    cases ls with
    | false => rfl
    | true =>
      simp only [if_true]
      cases hn : matchLen (b :: (a ++ [10])) with
      | none => rfl
      | some n =>
        simp only
        have hle : n - 1 ≤ (b :: a).length := by
          have h2 := matchLen_newline (b :: a) []
          simp only [List.cons_append] at h2
          rw [h2] at hn
          have := matchLen_le hn
          omega
        have t1 : (b :: (a ++ 10 :: r)).take (n - 1) = (b :: a).take (n - 1) := by
          have : b :: (a ++ 10 :: r) = (b :: a) ++ 10 :: r := rfl
          rw [this, List.take_append_of_le_length hle]
        have t2 : (b :: (a ++ [10])).take (n - 1) = (b :: a).take (n - 1) := by
          have : b :: (a ++ [10]) = (b :: a) ++ [10] := rfl
          rw [this, List.take_append_of_le_length hle]
        rw [t1, t2]

theorem keep_mem (s : Bytes) : ∀ (pos : Nat) (ls : Bool) (km : KeyMatch),
    km ∈ keep pos ls s →
      ∃ (i : Nat) (l t : Bytes), s.drop i = l ++ 58 :: t ∧ l ≠ [] ∧
        (∀ b ∈ l, isWord b = true) ∧
        ((i = 0 ∧ ls = true) ∨ (0 < i ∧ s.get? (i - 1) = some 10)) ∧
        keysToConduit.lookup (toLower l) = some km.key := by
  induction s with
  | nil => intro pos ls km h; simp [keep] at h
  | cons b rest ih =>
    intro pos ls km h
    rw [keep_cons, List.mem_append] at h
    rcases h with h | h
    · cases ls with
      | false => simp at h
      | true =>
        simp only [if_true] at h
        cases hm : matchLen (b :: rest) with
        | none => simp [hm] at h
        | some n =>
          simp only [hm] at h
          cases hk : keysToConduit.lookup (toLower ((b :: rest).take (n - 1))) with
          | none => simp [hk] at h
          | some k =>
            simp only [hk, List.mem_singleton] at h
            obtain ⟨l, t, hd, hne, hw, rfl⟩ := (matchLen_iff _ _).mp hm
            refine ⟨0, l, t, by simpa using hd, hne, hw, Or.inl ⟨rfl, rfl⟩, ?_⟩
            rw [hd] at hk
            rw [h]
            simpa using hk
    · obtain ⟨i, l, t, hd, hne, hw, hl, hk⟩ := ih _ _ km h
      refine ⟨i + 1, l, t, by simpa using hd, hne, hw, Or.inr ⟨by omega, ?_⟩, hk⟩
      rcases hl with ⟨rfl, hb⟩ | ⟨hi, hg⟩
      · simpa using hb
      · obtain ⟨j, rfl⟩ : ∃ j, i = j + 1 := ⟨i - 1, by omega⟩
        simpa using hg

/-- No retained label starts between the colon of a retained label and the
end of its value span. -/
theorem no_retained_between (buf : Bytes) (before : List KeyMatch) (m : KeyMatch)
    (after : List KeyMatch) (h : retained buf = before ++ m :: after) (km : KeyMatch)
    (hkm : km ∈ retained buf) :
    km.index.1 ≤ m.index.1 ∨ specSpanEnd buf after ≤ km.index.1 := by
  have hpl := retained_placed buf
  rw [h] at hpl hkm
  obtain ⟨hpw, hb⟩ := hpl
  rw [List.pairwise_append] at hpw
  obtain ⟨_, hpw2, hcross⟩ := hpw
  rw [List.mem_append] at hkm
  rcases hkm with hkm | hkm
  · left
    have := hcross km hkm m (by simp)
    have := hb km (by simp [hkm])
    omega
  · rw [List.mem_cons] at hkm
    rcases hkm with rfl | hkm
    · left; exact le_refl _
    · right
      cases after with
      | nil => simp at hkm
      | cons m1 rest =>
        simp only [specSpanEnd]
        rw [List.mem_cons] at hkm
        rcases hkm with rfl | hkm
        · exact le_refl _
        · have h1 := (List.pairwise_cons.mp (List.pairwise_cons.mp hpw2).2).1 km hkm
          have := hb m1 (by simp)
          omega

theorem append_inj_word {l l2 t t2 : Bytes} (h : l ++ 58 :: t = l2 ++ 58 :: t2)
    (hw : ∀ b ∈ l, isWord b = true) (hw2 : ∀ b ∈ l2, isWord b = true) : l = l2 ∧ t = t2 := by
  induction l generalizing l2 with
  | nil =>
    cases l2 with
    | nil => simpa using h
    | cons c l2 =>
      simp only [List.nil_append, List.cons_append, List.cons.injEq] at h
      have := hw2 c (by simp)
      rw [← h.1] at this
      simp [isWord] at this
  | cons a l ih =>
    cases l2 with
    | nil =>
      simp only [List.nil_append, List.cons_append, List.cons.injEq] at h
      have := hw a (by simp)
      rw [h.1] at this
      simp [isWord] at this
    | cons c l2 =>
      simp only [List.cons_append, List.cons.injEq] at h
      obtain ⟨rfl, h⟩ := h
      obtain ⟨rfl, rfl⟩ := ih h (fun b hb => hw b (by simp [hb]))
        (fun b hb => hw2 b (by simp [hb]))
      exact ⟨rfl, rfl⟩

/-- A text followed by a newline that carries a label at offset `i` carries
it before the newline. -/
theorem label_before_newline {x l t : Bytes} (h : x ++ [10] = l ++ 58 :: t) (hne : l ≠ [])
    (hw : ∀ b ∈ l, isWord b = true) : ∃ t2, x = l ++ 58 :: t2 := by
  have hm : matchLen (x ++ [10]) = some (l.length + 1) :=
    (matchLen_iff _ _).mpr ⟨l, t, h, hne, hw, rfl⟩
  rw [matchLen_newline x []] at hm
  obtain ⟨l2, t2, hx, _, hw2, hlen⟩ := (matchLen_iff _ _).mp hm
  rw [hx] at h
  simp only [List.append_assoc, List.cons_append] at h
  obtain ⟨rfl, _⟩ := append_inj_word h.symm hw hw2
  exact ⟨t2, hx⟩

/-- The value of a field holds no retained label after its first byte; when
it does not begin with one either, no label is retained in it at all. -/
theorem value_has_no_label (buf : Bytes) (before : List KeyMatch) (m : KeyMatch)
    (after : List KeyMatch) (h : retained buf = before ++ m :: after)
    (hv : startsWithLabel (trimSpace (specSpan buf m after)) = false) (pos : Nat) :
    keep pos true (trimSpace (specSpan buf m after) ++ [10]) = [] := by
  rw [List.eq_nil_iff_forall_not_mem]
  intro km hkm
  obtain ⟨i, l, t, hd, hne, hw, hl, hk⟩ := keep_mem _ _ _ _ hkm
  generalize hvdef : trimSpace (specSpan buf m after) = v at hd hl hv
  rcases hl with ⟨rfl, _⟩ | ⟨hi, hg⟩
  · simp only [List.drop_zero] at hd
    obtain ⟨t2, hx⟩ := label_before_newline hd hne hw
    have hm : matchLen v = some (l.length + 1) :=
      (matchLen_iff _ _).mpr ⟨l, t2, hx, hne, hw, rfl⟩
    unfold startsWithLabel at hv
    rw [hm] at hv
    simp only [Nat.add_sub_cancel] at hv
    rw [hx] at hv
    simp [hk] at hv
  · have hiv : i < v.length := by
      by_contra hc
      have hge : v.length ≤ i := by omega
      rcases Nat.eq_or_lt_of_le hge with he | hlt
      · rw [← he] at hd
        simp only [List.drop_left'] at hd
        cases l with
        | nil => exact hne rfl
        | cons a l1 =>
          simp only [List.cons_append, List.cons.injEq] at hd
          have := hw a (by simp)
          rw [← hd.1] at this
          simp [isWord] at this
      · have : (v ++ [10]).drop i = [] := by
          apply List.drop_eq_nil_of_le
          simp only [List.length_append, List.length_singleton]
          omega
        rw [this] at hd
        cases l <;> simp at hd
    have hd2 : v.drop i ++ [10] = l ++ 58 :: t := by
      rw [← hd, List.drop_append_of_le_length (by omega)]
    obtain ⟨t2, hx⟩ := label_before_newline hd2 hne hw
    have hg2 : v.get? (i - 1) = some 10 := by
      rw [List.get?_eq_getElem?] at hg ⊢
      rw [List.getElem?_append_left (by omega)] at hg
      exact hg
    obtain ⟨pre, label, post, hb, hidx, _, _, _, _, hend, _⟩ :=
      span_decomposition buf before m after h
    obtain ⟨w1, w2, hspan⟩ := trimSpace_infix (specSpan buf m after)
    rw [hvdef] at hspan
    have hvsplit : v = v.take i ++ v.drop i := (List.take_append_drop i v).symm
    let a := pre ++ label ++ 58 :: w1 ++ v.take i
    have hbuf : buf = a ++ (l ++ 58 :: (t2 ++ w2 ++ post)) := by
      conv_lhs => rw [hb, hspan]
      conv_lhs => rw [hvsplit, hx]
      simp [a]
    have halen : a.length = pre.length + label.length + 1 + w1.length + i := by
      simp only [a, List.length_append, List.length_cons, List.length_take]
      omega
    have hdrop : buf.drop a.length = l ++ 58 :: (t2 ++ w2 ++ post) := by
      conv_lhs => rw [hbuf]
      simp
    have hls : LineStart buf a.length := by
      right
      have h1 : a.length - 1 < a.length := by omega
      rw [List.get?_eq_getElem?]
      conv_lhs => rw [hbuf]
      rw [List.getElem?_append_left h1]
      have h2 : a = (pre ++ label ++ 58 :: w1) ++ v.take i := by simp [a]
      have h3 : (pre ++ label ++ 58 :: w1).length ≤ a.length - 1 := by
        simp only [List.length_append, List.length_cons]
        omega
      rw [h2, List.getElem?_append_right h3]
      have h4 : (pre ++ label ++ 58 :: w1 ++ v.take i).length - 1 -
          (pre ++ label ++ 58 :: w1).length = i - 1 := by
        simp only [List.length_append, List.length_cons, List.length_take]
        omega
      rw [h4, List.getElem?_take_of_lt (by omega)]
      rw [List.get?_eq_getElem?] at hg2
      exact hg2
    have hmem : (⟨((a.length : Int), ((a.length + l.length : Nat) : Int)), km.key⟩ : KeyMatch)
        ∈ retained buf :=
      (retained_mem buf _).mpr ⟨a.length, l, _, hdrop, hne, hw, hls, rfl, hk⟩
    have hno := no_retained_between buf before m after h _ hmem
    simp only at hno
    rw [hidx, hend] at hno
    simp only [hspan, List.length_append, List.length_cons] at hno
    rw [halen] at hno
    push_cast at hno
    omega

theorem labelOf_spec (k : Bytes)
    (hk : k ∈ [str "title", str "description", str "ownerPHID", str "ccPHIDs",
      str "projectPHIDs", str "priority", str "points"]) :
    specLabelOf k ≠ [] ∧ (∀ b ∈ specLabelOf k, isWord b = true) ∧
      keysToConduit.lookup (toLower (specLabelOf k)) = some k := by
  simp only [List.mem_cons, List.mem_singleton, List.not_mem_nil, or_false] at hk
  rcases hk with h | h | h | h | h | h | h <;> subst h <;> decide

/-- The retained key matches of a serialised field list are those of its
labels, when no label is retained inside a value. -/
theorem keep_serialize (fs : List (Bytes × Bytes)) : ∀ pos : Nat,
    (∀ f ∈ fs, f.1 ∈ [str "title", str "description", str "ownerPHID", str "ccPHIDs",
        str "projectPHIDs", str "priority", str "points"] ∧
      ∀ p, keep p true (f.2 ++ [10]) = []) →
    keep pos true (specSerialize fs) = labelMatches pos fs := by
  induction fs with
  | nil => intro pos _; rfl
  | cons f fs ih =>
    intro pos h
    obtain ⟨hk, hv⟩ := h f (by simp)
    obtain ⟨hne, hw, hlk⟩ := labelOf_spec f.1 hk
    simp only [specSerialize, labelMatches]
    rw [keep_label _ _ _ _ hne hw hlk, keep_line, hv, List.nil_append,
      ih _ (fun g hg => h g (by simp [hg]))]
    congr 2
    omega

theorem spanEnd_labelMatches (buf : Bytes) (pos : Nat) (fs : List (Bytes × Bytes))
    (h : buf.length = pos + (specSerialize fs).length) :
    specSpanEnd buf (labelMatches pos fs) = (pos : Int) := by
  cases fs with
  | nil =>
    simp only [specSerialize, List.length_nil, Nat.add_zero] at h
    simp [labelMatches, specSpanEnd, h]
  | cons f fs => simp [labelMatches, specSpanEnd]

/-- The value span of each label of a serialised field list is the value
between its two newlines. -/
theorem occurrences_serialize (fs : List (Bytes × Bytes)) : ∀ pre : Bytes,
    specOccurrences (pre ++ specSerialize fs) (labelMatches pre.length fs) =
      fs.map (fun f => (f.1, trimSpace (10 :: f.2 ++ [10]))) := by
  induction fs with
  | nil => intro pre; rfl
  | cons f fs ih =>
    intro pre
    have hbuf : pre ++ specSerialize (f :: fs) =
        (pre ++ specLabelOf f.1 ++ [58] ++ (10 :: f.2 ++ [10])) ++ specSerialize fs := by
      simp [specSerialize]
    have hlen : (pre ++ specLabelOf f.1 ++ [58] ++ (10 :: f.2 ++ [10])).length =
        pre.length + (specLabelOf f.1).length + f.2.length + 3 := by
      simp only [List.length_append, List.length_cons, List.length_nil]
      omega
    have hrec := ih (pre ++ specLabelOf f.1 ++ [58] ++ (10 :: f.2 ++ [10]))
    rw [hlen, ← hbuf] at hrec
    simp only [labelMatches, specOccurrences, List.map_cons, List.cons.injEq, Prod.mk.injEq,
      true_and]
    refine ⟨?_, hrec⟩
    congr 1
    unfold specSpan
    rw [spanEnd_labelMatches _ _ _ (by rw [hbuf, List.length_append, hlen])]
    simp only
    have e1 : (((pre.length + (specLabelOf f.1).length : Nat) : Int) + 1).toNat =
        (pre ++ specLabelOf f.1 ++ [58]).length := by
      simp only [List.length_append, List.length_singleton]
      omega
    have e2 : (((pre.length + (specLabelOf f.1).length + f.2.length + 3 : Nat) : Int) -
        (((pre.length + (specLabelOf f.1).length : Nat) : Int) + 1)).toNat =
        (10 :: f.2 ++ [10]).length := by
      simp only [List.cons_append, List.length_cons, List.length_append, List.length_singleton,
        List.length_nil]
      push_cast
      omega
    rw [e1, e2, hbuf]
    have e3 : pre ++ specLabelOf f.1 ++ [58] ++ (10 :: f.2 ++ [10]) ++ specSerialize fs =
        (pre ++ specLabelOf f.1 ++ [58]) ++ ((10 :: f.2 ++ [10]) ++ specSerialize fs) := by
      simp
    rw [e3, List.drop_left' rfl, List.take_left' rfl]

/-- Writing out and parsing again returns a field list whose keys are output
keys of the table and whose values are trimmed, not empty and free of
retained labels. -/
theorem fields_serialize (fs : List (Bytes × Bytes))
    (h : ∀ f ∈ fs, f.1 ∈ [str "title", str "description", str "ownerPHID", str "ccPHIDs",
        str "projectPHIDs", str "priority", str "points"] ∧
      (∀ p, keep p true (f.2 ++ [10]) = []) ∧ f.2 ≠ [] ∧
      trimSpace (10 :: f.2 ++ [10]) = f.2) :
    specFields (specSerialize fs) = fs := by
  unfold specFields
  rw [retained_eq_keep, keep_serialize fs 0 (fun f hf => ⟨(h f hf).1, (h f hf).2.1⟩)]
  have := occurrences_serialize fs []
  simp only [List.nil_append, List.length_nil] at this
  rw [this]
  unfold specNonEmpty
  have hmap : fs.map (fun f => (f.1, trimSpace (10 :: f.2 ++ [10]))) = fs := by
    conv_rhs => rw [← List.map_id fs]
    apply List.map_congr_left
    intro f hf
    rw [(h f hf).2.2.2]
    rfl
  rw [hmap, List.filter_eq_self]
  intro f hf
  simpa using (h f hf).2.2.1

theorem occurrences_mem (buf : Bytes) (ms : List KeyMatch) (f : Bytes × Bytes)
    (h : f ∈ specOccurrences buf ms) :
    ∃ before m after, ms = before ++ m :: after ∧
      f = (m.key, trimSpace (specSpan buf m after)) := by
  induction ms with
  | nil => simp [specOccurrences] at h
  | cons m rest ih =>
    simp only [specOccurrences, List.mem_cons] at h
    rcases h with h | h
    · exact ⟨[], m, rest, rfl, h⟩
    · obtain ⟨before, m1, after, hr, hf⟩ := ih h
      exact ⟨m :: before, m1, after, by simp [hr], hf⟩

/-! ## The stored map and its entries -/

theorem GoMap.mem_set {β : Type} (m : GoMap β) (k : Bytes) (v : β) (p : Bytes × β)
    (h : p ∈ m.set k v) : p = (k, v) ∨ p ∈ m := by
  induction m with
  | nil => simp [GoMap.set] at h; exact Or.inl h
  | cons q rest ih =>
    obtain ⟨k0, v0⟩ := q
    unfold GoMap.set at h
    by_cases h0 : k0 = k
    · simp only [h0, if_true, List.mem_cons] at h
      rcases h with h | h
      · exact Or.inl h
      · exact Or.inr (by simp [h])
    · simp only [h0, if_false, List.mem_cons] at h
      rcases h with h | h
      · exact Or.inr (by simp [h])
      · rcases ih h with h | h
        · exact Or.inl h
        · exact Or.inr (by simp [h])

theorem GoMap.keys_set {β : Type} (m : GoMap β) (k : Bytes) (v : β) :
    (m.set k v).map Prod.fst =
      if k ∈ m.map Prod.fst then m.map Prod.fst else m.map Prod.fst ++ [k] := by
  induction m with
  | nil => simp [GoMap.set]
  | cons q rest ih =>
    obtain ⟨k0, v0⟩ := q
    unfold GoMap.set
    by_cases h0 : k0 = k
    · subst h0; simp
    · simp only [h0, if_false, List.map_cons, ih, List.mem_cons]
      have h1 : ¬ k = k0 := fun e => h0 e.symm
      by_cases hk : k ∈ rest.map Prod.fst
      · simp [hk]
      · simp [hk, h1]

theorem GoMap.nodup_set {β : Type} (m : GoMap β) (k : Bytes) (v : β)
    (h : (m.map Prod.fst).Nodup) : ((m.set k v).map Prod.fst).Nodup := by
  rw [GoMap.keys_set]
  by_cases hk : k ∈ m.map Prod.fst
  · simpa [hk] using h
  · simp only [hk, if_false]
    rw [List.nodup_append]
    refine ⟨h, by simp, ?_⟩
    intro a ha hb
    simp only [List.mem_singleton] at hb
    subst hb
    exact hk ha

theorem GoMap.get_of_mem {β : Type} (m : GoMap β) (k : Bytes) (x : β)
    (hn : (m.map Prod.fst).Nodup) (h : (k, x) ∈ m) : m.get k = some x := by
  induction m with
  | nil => simp at h
  | cons q rest ih =>
    obtain ⟨k0, v0⟩ := q
    simp only [List.map_cons, List.nodup_cons] at hn
    simp only [List.mem_cons, Prod.mk.injEq] at h
    rcases h with ⟨rfl, rfl⟩ | h
    · simp [GoMap.get, List.lookup]
    · have hne : ¬ k = k0 := by
        intro e
        subst e
        exact hn.1 (List.mem_map_of_mem Prod.fst h)
      have hb : (k == k0) = false := by simpa using hne
      simp only [GoMap.get, List.lookup, hb]
      exact ih hn.2 h

theorem GoMap.mem_of_get {β : Type} (m : GoMap β) (k : Bytes) (x : β)
    (h : m.get k = some x) : (k, x) ∈ m := by
  induction m with
  | nil => simp [GoMap.get] at h
  | cons q rest ih =>
    obtain ⟨k0, v0⟩ := q
    by_cases hk : k = k0
    · subst hk
      simp only [GoMap.get, List.lookup, beq_self_eq_true, Option.some.injEq] at h
      simp [h]
    · have hb : (k == k0) = false := by simpa using hk
      simp only [GoMap.get, List.lookup, hb] at h
      exact List.mem_cons_of_mem _ (ih h)

theorem GoMap.get_none {β : Type} (m : GoMap β) (k : Bytes) (h : m.get k = none) :
    ∀ p ∈ m, p.1 ≠ k := by
  induction m with
  | nil => simp
  | cons q rest ih =>
    obtain ⟨k0, v0⟩ := q
    by_cases hk : k = k0
    · subst hk
      simp [GoMap.get, List.lookup] at h
    · have hb : (k == k0) = false := by simpa using hk
      simp only [GoMap.get, List.lookup, hb] at h
      intro p hp
      simp only [List.mem_cons] at hp
      rcases hp with rfl | hp
      · exact fun e => hk e.symm
      · exact ih h p hp

/-- The map built by storing fields has one entry per key, and every entry
is one of the fields stored. -/
theorem store_inv (fs : List (Bytes × Bytes)) :
    ((store fs []).map Prod.fst).Nodup ∧
      ∀ p ∈ store fs [], ∃ f ∈ fs, p = (f.1, Value.str f.2) := by
  induction fs using List.reverseRecOn with
  | nil => simp [store]
  | append_singleton fs f ih =>
    have e : store (fs ++ [f]) [] = (store fs []).set f.1 (.str f.2) := by
      rw [store_append]; rfl
    rw [e]
    refine ⟨GoMap.nodup_set _ _ _ ih.1, ?_⟩
    intro p hp
    rcases GoMap.mem_set _ _ _ _ hp with h | h
    · exact ⟨f, by simp, h⟩
    · obtain ⟨g, hg, hpg⟩ := ih.2 p h
      exact ⟨g, by simp [hg], hpg⟩

theorem mem_entries (d : GoMap Value) (e : Bytes × Bytes) :
    e ∈ entries d ↔ (e.1, Value.str e.2) ∈ d := by
  unfold entries
  rw [List.mem_filterMap]
  constructor
  · rintro ⟨p, hp, he⟩
    obtain ⟨k, x⟩ := p
    cases x with
    | str s =>
      simp only [Option.some.injEq] at he
      subst he
      exact hp
    | strs l => simp at he
  · intro h
    exact ⟨(e.1, .str e.2), h, rfl⟩

/-- The fields of a text can be written out and read back when none of
their values begins with a label. -/
theorem fields_good (buf : Bytes) (f : Bytes × Bytes) (hf : f ∈ specFields buf)
    (hv : startsWithLabel f.2 = false) :
    f.1 ∈ [str "title", str "description", str "ownerPHID", str "ccPHIDs",
        str "projectPHIDs", str "priority", str "points"] ∧
      (∀ p, keep p true (f.2 ++ [10]) = []) ∧ f.2 ≠ [] ∧
      trimSpace (10 :: f.2 ++ [10]) = f.2 := by
  unfold specFields specNonEmpty at hf
  rw [List.mem_filter] at hf
  obtain ⟨hocc, hne⟩ := hf
  obtain ⟨before, m, after, hr, rfl⟩ := occurrences_mem buf _ f hocc
  have hm : m ∈ retained buf := by rw [hr]; simp
  refine ⟨retained_key_mem buf m hm, ?_, by simpa using hne, ?_⟩
  · intro p
    exact value_has_no_label buf before m after hr hv p
  · exact trimSpace_wrap _ (by simpa using hne)

/-- Writing out the entries of the parser's map, in any order, and parsing
again gives a map with the same contents. -/
theorem reparse_entries (buf : Bytes) (h : ∀ f ∈ specFields buf, startsWithLabel f.2 = false)
    (es : List (Bytes × Bytes)) (hes : es.Perm (entries (store (specFields buf) []))) :
    parse (specSerialize es) = .ok (store es []) ∧
      ∀ k, (store es []).get k = (store (specFields buf) []).get k := by
  obtain ⟨hnd, hall⟩ := store_inv (specFields buf)
  have hmem : ∀ e, e ∈ es ↔ (e.1, Value.str e.2) ∈ store (specFields buf) [] := by
    intro e
    rw [hes.mem_iff, mem_entries]
  have hsub : ∀ e ∈ es, e ∈ specFields buf := by
    intro e he
    obtain ⟨f, hf, hp⟩ := hall _ ((hmem e).mp he)
    simp only [Prod.mk.injEq, Value.str.injEq] at hp
    have : e = f := Prod.ext hp.1 hp.2
    rw [this]
    exact hf
  have hfs : specFields (specSerialize es) = es :=
    fields_serialize es (fun e he => fields_good buf e (hsub e he) (h e (hsub e he)))
  refine ⟨by rw [parse_eq, hfs], ?_⟩
  intro k
  rw [store_get es [] k]
  cases hd : (store (specFields buf) []).get k with
  | none =>
    have hno := GoMap.get_none _ _ hd
    have : es.filter (fun f => decide (f.1 = k)) = [] := by
      rw [List.filter_eq_nil_iff]
      intro e he
      have := hno _ ((hmem e).mp he)
      simpa using this
    rw [this]
    simp [GoMap.get]
  | some x =>
    have hx := GoMap.mem_of_get _ _ _ hd
    obtain ⟨f, _, hp⟩ := hall _ hx
    simp only [Prod.mk.injEq] at hp
    obtain ⟨hk, rfl⟩ := hp
    have hin : (k, f.2) ∈ es := (hmem (k, f.2)).mpr hx
    have hne : es.filter (fun f => decide (f.1 = k)) ≠ [] := by
      intro e
      have : (k, f.2) ∈ es.filter (fun f => decide (f.1 = k)) := by
        rw [List.mem_filter]; exact ⟨hin, by simp⟩
      rw [e] at this
      simp at this
    cases hl : (es.filter (fun f => decide (f.1 = k))).getLast? with
    | none => rw [List.getLast?_eq_none_iff] at hl; exact absurd hl hne
    | some g =>
      simp only
      have hg := List.mem_of_getLast?_eq_some hl
      rw [List.mem_filter] at hg
      obtain ⟨hges, hgk⟩ := hg
      have hgk2 : g.1 = k := by simpa using hgk
      have hgd := (hmem g).mp hges
      rw [hgk2] at hgd
      have := GoMap.get_of_mem _ _ _ hnd hgd
      rw [hd] at this
      exact this.symm

/-! ## What the collecting loop of `getPHIDs` returns -/

theorem collectLoop_found (response : GoMap (GoMap Bytes)) (names : List Bytes) :
    ∀ (a rest : List Bytes), (∀ o ∈ names, response.get o ≠ none) →
      collectLoop response a.length names (a ++ rest) =
        if names.length ≤ rest.length then
          .ok (a ++ names.map (phidOf response) ++ rest.drop names.length)
        else .error (.panic "index out of range") := by
  induction names with
  | nil => intro a rest _; simp [collectLoop]
  | cons o names ih =>
    intro a rest h
    have ho := h o (by simp)
    cases hg : response.get o with
    | none => exact absurd hg ho
    | some v =>
      unfold collectLoop
      simp only [hg]
      cases rest with
      | nil => simp [setIndex]
      | cons y rest =>
        have hs : setIndex (a ++ y :: rest) a.length ((v.get (str "phid")).getD []) =
            .ok (a ++ (v.get (str "phid")).getD [] :: rest) := by
          unfold setIndex
          rw [if_pos (by simp)]
          simp
        rw [hs]
        simp only
        have hrec := ih (a ++ [(v.get (str "phid")).getD []]) rest
          (fun o1 h1 => h o1 (by simp [h1]))
        simp only [List.length_append, List.length_singleton, List.append_assoc,
          List.singleton_append] at hrec
        rw [hrec]
        have hp : phidOf response o = (v.get (str "phid")).getD [] := by
          simp [phidOf, hg]
        simp only [List.length_cons, Nat.add_le_add_iff_right, List.map_cons, hp,
          List.drop_succ_cons, List.append_assoc, List.cons_append]

theorem collectLoop_missing (response : GoMap (GoMap Bytes)) (found : List Bytes) (o : Bytes)
    (later : List Bytes) :
    ∀ (a rest : List Bytes), (∀ x ∈ found, response.get x ≠ none) → response.get o = none →
      found.length ≤ rest.length →
      collectLoop response a.length (found ++ o :: later) (a ++ rest) =
        .error (.fatal 251 (.errorf (str "unable to find the phid of %q") [.q o])) := by
  induction found with
  | nil => intro a rest _ ho _; simp [collectLoop, ho, fatalf]
  | cons x found ih =>
    intro a rest h ho hl
    have hx := h x (by simp)
    cases hg : response.get x with
    | none => exact absurd hg hx
    | some v =>
      cases rest with
      | nil => simp at hl
      | cons y rest =>
        have hs : setIndex (a ++ y :: rest) a.length ((v.get (str "phid")).getD []) =
            .ok (a ++ (v.get (str "phid")).getD [] :: rest) := by
          unfold setIndex
          rw [if_pos (by simp)]
          simp
        simp only [List.cons_append]
        unfold collectLoop
        simp only [hg, hs]
        have hrec := ih (a ++ [(v.get (str "phid")).getD []]) rest
          (fun o1 h1 => h o1 (by simp [h1])) ho (by simpa using hl)
        simp only [List.length_append, List.length_singleton, List.append_assoc,
          List.singleton_append] at hrec
        exact hrec

/-- What `getPHIDs` returns once the reply is decoded with empty error
fields.  When every token is in the response the result has the length of
the response map: the identifiers of the tokens in request order, padded with
empty strings, or an index panic when there are more tokens than entries.
When a token is missing and the tokens before it fit, the run stops with
`unable to find the phid of` that token. -/
theorem lookupDecoded_result (res : LookupReply) (names : List Bytes)
    (he : res.error = [] ∧ res.errorMessage = []) :
    ((∀ o ∈ names, res.response.get o ≠ none) →
      lookupDecoded res names =
        if names.length ≤ res.response.len then
          .ok (names.map (phidOf res.response) ++
            List.replicate (res.response.len - names.length) [])
        else .error (.panic "index out of range")) ∧
    (∀ found o later, names = found ++ o :: later →
      (∀ x ∈ found, res.response.get x ≠ none) → res.response.get o = none →
      found.length ≤ res.response.len →
      lookupDecoded res names =
        .error (.fatal 251 (.errorf (str "unable to find the phid of %q") [.q o]))) := by
  have hc : ¬ (res.error ≠ [] ∨ res.errorMessage ≠ []) := by
    simp [he.1, he.2]
  constructor
  · intro h
    unfold lookupDecoded
    rw [if_neg hc]
    have := collectLoop_found res.response names [] (List.replicate res.response.len []) h
    simp only [List.length_nil, List.nil_append, List.length_replicate,
      List.drop_replicate] at this
    exact this
  · intro found o later hn hf ho hl
    unfold lookupDecoded
    rw [if_neg hc, hn]
    have := collectLoop_missing res.response found o later []
      (List.replicate res.response.len []) hf ho (by simpa using hl)
    simpa using this

/-! ## Owner resolution against a reply that holds the requested tokens -/

theorem split_ne_nil (sep : Nat) (s : Bytes) : split sep s ≠ [] := by
  cases s with
  | nil => simp [split]
  | cons b t =>
    unfold split
    by_cases hb : b = sep
    · simp [hb]
    · simp only [hb, if_false]
      cases split sep t <;> simp

theorem namesLoop_length (sigil : Nat) (pieces : List Bytes) :
    ∀ (acc r : List Bytes), namesLoop sigil pieces acc = .ok r →
      r.length = acc.length + pieces.length := by
  induction pieces with
  | nil =>
    intro acc r h
    simp only [namesLoop, Except.ok.injEq] at h
    simp [← h]
  | cons piece rest ih =>
    intro acc r h
    unfold namesLoop at h
    simp only at h
    cases hv : trimSpace piece with
    | nil => rw [hv] at h; exact absurd h (by simp)
    | cons v0 vt =>
      rw [hv] at h
      simp only at h
      have := ih _ _ h
      simp only [List.length_append, List.length_singleton, List.length_cons,
        List.length_nil] at this ⊢
      omega

/-- A token list that was built holds at least one token. -/
theorem requestNames_ne_nil (value : Bytes) (sigil : Nat) (names : List Bytes)
    (h : requestNames value sigil = .ok names) : names ≠ [] := by
  unfold requestNames at h
  have hl := namesLoop_length sigil _ _ _ h
  have hs := split_ne_nil 44 value
  intro hn
  rw [hn] at hl
  simp only [List.length_nil, Nat.zero_add] at hl
  exact hs (List.length_eq_zero.mp hl.symm)

/-- With the token list built and every external step of the lookup
succeeding, `getPHIDs` is the check and the collection on the decoded reply. -/
theorem getPHIDs_lookupOk (value : Bytes) (sigil : Nat) (names : List Bytes)
    (response : GoMap (GoMap Bytes)) (h : requestNames value sigil = .ok names) :
    getPHIDs value sigil (lookupOk response) = lookupDecoded ⟨[], [], response⟩ names := by
  unfold getPHIDs
  rw [h]
  rfl

theorem GoMap.key_of_get {β : Type} (m : GoMap β) (k : Bytes) (h : m.get k ≠ none) :
    k ∈ m.map Prod.fst := by
  cases hg : m.get k with
  | none => exact absurd hg h
  | some x => exact List.mem_map_of_mem Prod.fst (GoMap.mem_of_get m k x hg)

/-- Distinct tokens that the response maps are no more than its entries. -/
theorem found_le_len {β : Type} (response : GoMap β) (found : List Bytes)
    (hd : found.Nodup) (hf : ∀ x ∈ found, response.get x ≠ none) :
    found.length ≤ response.len := by
  unfold GoMap.len
  apply List.Subperm.length_le
  apply List.subperm_of_subset hd
  intro x hx
  exact List.mem_dedup.mpr (GoMap.key_of_get response x (hf x hx))

/-- A response that maps the distinct requested tokens and nothing else has
as many entries as there are tokens. -/
theorem len_eq_names {β : Type} (response : GoMap β) (names : List Bytes)
    (hd : names.Nodup) (hf : ∀ o ∈ names, response.get o ≠ none)
    (hx : ∀ p ∈ response, p.1 ∈ names) : response.len = names.length := by
  unfold GoMap.len
  apply List.Perm.length_eq
  rw [List.perm_ext_iff_of_nodup (List.nodup_dedup _) hd]
  intro a
  rw [List.mem_dedup]
  constructor
  · intro ha
    obtain ⟨p, hp, rfl⟩ := List.mem_map.mp ha
    exact hx p hp
  · intro ha
    exact GoMap.key_of_get response a (hf a ha)

/-- A list some element of which fails a property splits at the first such
element. -/
theorem first_failing {α : Type} (P : α → Prop) (l : List α) (h : ¬ ∀ x ∈ l, P x) :
    ∃ found o later, l = found ++ o :: later ∧ (∀ x ∈ found, P x) ∧ ¬ P o := by
  induction l with
  | nil => exact absurd (by simp) h
  | cons a l ih =>
    by_cases ha : P a
    · have h2 : ¬ ∀ x ∈ l, P x := by
        intro hall
        apply h
        intro x hx
        rcases List.mem_cons.mp hx with rfl | hx
        · exact ha
        · exact hall x hx
      obtain ⟨found, o, later, hl, hf, ho⟩ := ih h2
      refine ⟨a :: found, o, later, by simp [hl], ?_, ho⟩
      intro x hx
      rcases List.mem_cons.mp hx with rfl | hx
      · exact ha
      · exact hf x hx
    · exact ⟨[], a, l, rfl, by simp, ha⟩

/-- What owner resolution does once `getPHIDs` has returned or failed. -/
theorem resolveOwner_of_getPHIDs (data : GoMap Value) (v : Bytes) (env : LookupEnv)
    (h : data.get (str "ownerPHID") = some (.str v)) :
    (∀ d, resolveOwner data env = .ok d ↔
      ∃ p, getPHIDs v 64 env = .ok [p] ∧ d = data.set (str "ownerPHID") (.str p)) ∧
    (∀ phids, getPHIDs v 64 env = .ok phids → phids.length ≠ 1 →
      resolveOwner data env =
        .error (.fatal 134 (.errorf (str "you should specify just 1 owner got: %d")
          [.d phids.length]))) ∧
    (∀ f, getPHIDs v 64 env = .error f → resolveOwner data env = .error f) := by
  unfold resolveOwner
  rw [h]
  simp only
  refine ⟨?_, ?_, ?_⟩
  · intro d
    cases hg : getPHIDs v 64 env with
    | error f => simp
    | ok phids =>
      simp only
      by_cases hl : phids.length = 1
      · obtain ⟨p, rfl⟩ := List.length_eq_one.mp hl
        simp [eq_comm]
      · simp only [hl, ne_eq, not_false_eq_true, if_true, fatalf]
        constructor
        · intro hc; exact absurd hc (by simp)
        · rintro ⟨p, hp, _⟩
          simp only [Except.ok.injEq] at hp
          subst hp
          simp at hl
  · intro phids hg hl
    rw [hg]
    simp [hl, fatalf]
  · intro f hg
    rw [hg]

/-- The identifiers `getPHIDs` returns for distinct tokens that the response
maps, when the response maps nothing else: one per token, in request order. -/
theorem getPHIDs_exact (value : Bytes) (sigil : Nat) (names : List Bytes)
    (response : GoMap (GoMap Bytes)) (hn : requestNames value sigil = .ok names)
    (hd : names.Nodup) (hf : ∀ o ∈ names, response.get o ≠ none)
    (hx : ∀ p ∈ response, p.1 ∈ names) :
    getPHIDs value sigil (lookupOk response) = .ok (names.map (phidOf response)) := by
  rw [getPHIDs_lookupOk value sigil names response hn]
  have := (lookupDecoded_result ⟨[], [], response⟩ names ⟨rfl, rfl⟩).1 hf
  simp only at this
  rw [this, len_eq_names response names hd hf hx]
  simp

/-- The failure of `getPHIDs` on distinct tokens the first absent of which
is `o`. -/
theorem getPHIDs_missing (value : Bytes) (sigil : Nat) (names : List Bytes)
    (response : GoMap (GoMap Bytes)) (hn : requestNames value sigil = .ok names)
    (hd : names.Nodup) (found : List Bytes) (o : Bytes) (later : List Bytes)
    (hs : names = found ++ o :: later) (hf : ∀ x ∈ found, response.get x ≠ none)
    (ho : response.get o = none) :
    getPHIDs value sigil (lookupOk response) =
      .error (.fatal 251 (.errorf (str "unable to find the phid of %q") [.q o])) := by
  rw [getPHIDs_lookupOk value sigil names response hn]
  have hfd : found.Nodup := by
    rw [hs] at hd
    exact (List.nodup_append.mp hd).1
  exact (lookupDecoded_result ⟨[], [], response⟩ names ⟨rfl, rfl⟩).2 found o later hs hf ho
    (found_le_len response found hfd hf)

/-! ## The parser: the claims -/

/-- C6: a line-start label match is retained exactly when its lower-cased
text is one of title, description, owner, cc, projects, priority, points, in
whatever mix of upper and lower case it is spelt; a retained label carries the
output key title, description, ownerPHID, ccPHIDs, projectPHIDs, priority,
points respectively; every retained key match comes from a match, and every
key of the parser's result is the key of a retained label. -/
theorem recognised_labels_only (buf : Bytes) :
    matchLoop buf (findAllIndex buf) [] = .ok (retained buf) ∧
    (∀ m ∈ findAllIndex buf, ∃ (s e1 : Int) (label : Bytes),
      m = [s, e1] ∧ slice buf s (e1 - 1) = .ok label ∧
      ((∃ km ∈ retained buf, km.index = (s, e1 - 1)) ↔
        toLower label ∈ [str "title", str "description", str "owner", str "cc",
          str "projects", str "priority", str "points"]) ∧
      (∀ km ∈ retained buf, km.index = (s, e1 - 1) →
        (toLower label, km.key) ∈
          [(str "title", str "title"), (str "description", str "description"),
            (str "owner", str "ownerPHID"), (str "cc", str "ccPHIDs"),
            (str "projects", str "projectPHIDs"), (str "priority", str "priority"),
            (str "points", str "points")])) ∧
    (∀ label t : Bytes,
      t ∈ [str "title", str "description", str "owner", str "cc", str "projects",
        str "priority", str "points"] →
      List.Forall₂ (fun a b : Nat => a = b ∨ (65 ≤ a ∧ a ≤ 90 ∧ a + 32 = b)) label t →
      toLower label = t) ∧
    (∀ km ∈ retained buf, [km.index.1, km.index.2 + 1] ∈ findAllIndex buf) ∧
    (∀ (data : GoMap Value) (k : Bytes) (v : Value), parse buf = .ok data →
      data.get k = some v →
      k ∈ [str "title", str "description", str "ownerPHID", str "ccPHIDs",
        str "projectPHIDs", str "priority", str "points"] ∧
      ∃ km ∈ retained buf, km.key = k) := by
  refine ⟨matchLoop_retained buf, ?_, ?_, ?_, ?_⟩
  · intro m hm
    obtain ⟨s, e1, rfl, h0, h1, h2⟩ := findAllIndex_valid buf m hm
    refine ⟨s, e1, _, rfl, slice_ok h0 h1 (by omega), ?_, ?_⟩
    · constructor
      · rintro ⟨km, hkm, hi⟩
        unfold retained at hkm
        obtain ⟨m1, _, hk⟩ := List.mem_filterMap.mp hkm
        obtain ⟨s1, e2, rfl, hi1, hlk⟩ := keyOf_some hk
        rw [hi] at hi1
        simp only [Prod.mk.injEq] at hi1
        obtain ⟨rfl, he⟩ := hi1
        have : e2 = e1 := by omega
        subst this
        have := (lookup_table _ _).mp hlk
        simp only [List.mem_cons, Prod.mk.injEq, List.mem_singleton, List.not_mem_nil,
          or_false] at this
        simp only [List.mem_cons, List.mem_singleton, List.not_mem_nil, or_false]
        tauto
      · intro hl
        have : ∃ k, keysToConduit.lookup
            (toLower ((buf.drop s.toNat).take (e1 - 1 - s).toNat)) = some k := by
          simp only [List.mem_cons, List.mem_singleton, List.not_mem_nil, or_false] at hl
          rcases hl with h | h | h | h | h | h | h <;> rw [h] <;> exact ⟨_, rfl⟩
        obtain ⟨k, hk⟩ := this
        refine ⟨⟨(s, e1 - 1), k⟩, ?_, rfl⟩
        unfold retained
        exact List.mem_filterMap.mpr ⟨[s, e1], hm, by simp [keyOf, hk]⟩
    · intro km hkm hi
      unfold retained at hkm
      obtain ⟨m1, _, hk⟩ := List.mem_filterMap.mp hkm
      obtain ⟨s1, e2, rfl, hi1, hlk⟩ := keyOf_some hk
      rw [hi] at hi1
      simp only [Prod.mk.injEq] at hi1
      obtain ⟨rfl, he⟩ := hi1
      have : e2 = e1 := by omega
      subst this
      exact (lookup_table _ _).mp hlk
  · intro label t ht hf
    refine toLower_of_spelling label t ?_ hf
    simp only [List.mem_cons, List.mem_singleton, List.not_mem_nil, or_false] at ht
    rcases ht with h | h | h | h | h | h | h <;> subst h <;> decide
  · intro km hkm
    unfold retained at hkm
    obtain ⟨m1, hm1, hk⟩ := List.mem_filterMap.mp hkm
    obtain ⟨s1, e2, rfl, hi1, _⟩ := keyOf_some hk
    rw [hi1]
    simpa using hm1
  · intro data k v hp hg
    rw [parse_eq] at hp
    simp only [Except.ok.injEq] at hp
    subst hp
    obtain ⟨f, hf, hk, _, _⟩ := parse_get_some buf k v hg
    have : f.1 ∈ (specOccurrences buf (retained buf)).map Prod.fst := List.mem_map_of_mem _ hf
    rw [occurrences_keys] at this
    obtain ⟨km, hkm, hkk⟩ := List.mem_map.mp this
    refine ⟨?_, km, hkm, by rw [hkk, hk]⟩
    rw [← hk, ← hkk]
    exact retained_key_mem buf km hkm

/-- C1: for every text the parser returns the map obtained by storing, in
source order, the pair of key and trimmed value of each retained label
occurrence whose trimmed value is not empty, and nothing else; the value of an
occurrence is the trimmed text from just after the colon of its label to the
start of the next retained label, or to the end of the text for the last. -/
theorem parser_stores_trimmed_spans (buf : Bytes) :
    matchLoop buf (findAllIndex buf) [] = .ok (retained buf) ∧
    List.Pairwise (fun a b : KeyMatch => a.index.2 < b.index.1) (retained buf) ∧
    parse buf = .ok (store ((specOccurrences buf (retained buf)).filter
      (fun f => decide (f.2 ≠ []))) []) ∧
    (specOccurrences buf (retained buf)).map Prod.fst = (retained buf).map KeyMatch.key ∧
    ∀ (before : List KeyMatch) (m : KeyMatch) (after : List KeyMatch),
      retained buf = before ++ m :: after →
      ∃ pre label span post : Bytes,
        buf = pre ++ label ++ 58 :: span ++ post ∧
        m.index = ((pre.length : Int), ((pre.length + label.length : Nat) : Int)) ∧
        keysToConduit.lookup (toLower label) = some m.key ∧
        (after = [] → post = []) ∧
        (∀ m1 rest, after = m1 :: rest →
          m1.index.1 = ((pre ++ label ++ 58 :: span).length : Int)) ∧
        (specOccurrences buf (retained buf)).get? before.length = some (m.key, trimSpace span) := by
  refine ⟨matchLoop_retained buf, ?_, parse_eq buf, occurrences_keys buf _, ?_⟩
  · refine List.Pairwise.imp ?_ (retained_placed buf).1
    intro a b hab
    omega
  · intro before m after h
    obtain ⟨pre, label, post, hb, hi, _, _, _, hlk, hend, hpost⟩ :=
      span_decomposition buf before m after h
    refine ⟨pre, label, specSpan buf m after, post, hb, hi, hlk, hpost, ?_, ?_⟩
    · intro m1 rest ha
      subst ha
      simpa [specSpanEnd] using hend
    · rw [h]
      exact occurrences_get buf before m after

/-- C9: on every text the parser runs to its end: every match holds two
indices, the label slice and the value slice it takes are within the bounds of
the text, each value span starting at the end of its own match and ending no
earlier, at the start of the next retained match or at the end of the text;
a text without a label match gives the empty result. -/
theorem parser_never_fails (buf : Bytes) :
    (∀ m ∈ findAllIndex buf, ∃ (s e1 : Int) (label : Bytes), m = [s, e1] ∧
      0 ≤ s ∧ s ≤ e1 - 1 ∧ e1 - 1 ≤ (buf.length : Int) ∧
      slice buf s (e1 - 1) = .ok label) ∧
    (∃ ms, matchLoop buf (findAllIndex buf) [] = .ok ms ∧
      ∀ (before : List KeyMatch) (m : KeyMatch) (after : List KeyMatch),
        ms = before ++ m :: after →
        0 ≤ m.index.2 + 1 ∧ m.index.2 + 1 ≤ specSpanEnd buf after ∧
        specSpanEnd buf after ≤ (buf.length : Int) ∧
        ∃ span, slice buf (m.index.2 + 1) (specSpanEnd buf after) = .ok span) ∧
    (∃ data, parse buf = .ok data) ∧
    (findAllIndex buf = [] → parse buf = .ok []) := by
  refine ⟨?_, ⟨retained buf, matchLoop_retained buf, ?_⟩, ⟨_, parse_eq buf⟩, ?_⟩
  · intro m hm
    obtain ⟨s, e1, rfl, h0, h1, h2⟩ := findAllIndex_valid buf m hm
    exact ⟨s, e1, _, rfl, h0, h1, by omega, slice_ok h0 h1 (by omega)⟩
  · intro before m after h
    have hpl : Placed buf (m :: after) := by
      have := retained_placed buf
      rw [h] at this
      exact Placed.suffix before this
    obtain ⟨h0, h1, h2⟩ := hpl.span
    exact ⟨h0, h1, h2, _, slice_ok h0 h1 h2⟩
  · intro h
    rw [parse_eq]
    simp [specFields, retained, h, specOccurrences, specNonEmpty, store]

/-- C10: when a label occurs several times each occurrence is a field of its
own with the same key and its own value span, and the map the parser returns
holds for a key the value of the last occurrence of that key whose trimmed
value is not empty; an occurrence with an empty value changes nothing. -/
theorem repeated_label_last_write_wins (buf : Bytes) (k : Bytes) :
    ∃ data, parse buf = .ok data ∧
      matchLoop buf (findAllIndex buf) [] = .ok (retained buf) ∧
      (specOccurrences buf (retained buf)).map Prod.fst = (retained buf).map KeyMatch.key ∧
      (∀ (before : List KeyMatch) (m : KeyMatch) (after : List KeyMatch),
        retained buf = before ++ m :: after →
        (specOccurrences buf (retained buf)).get? before.length =
          some (m.key, trimSpace (specSpan buf m after))) ∧
      data.get k =
        (((specOccurrences buf (retained buf)).filter
          (fun f => decide (f.1 = k ∧ f.2 ≠ []))).getLast?).map (fun f => Value.str f.2) := by
  refine ⟨_, parse_eq buf, matchLoop_retained buf, occurrences_keys buf _, ?_, ?_⟩
  · intro before m after h
    rw [h]
    exact occurrences_get buf before m after
  · rw [store_get]
    have e : (specFields buf).filter (fun f => decide (f.1 = k)) =
        (specOccurrences buf (retained buf)).filter (fun f => decide (f.1 = k ∧ f.2 ≠ [])) := by
      unfold specFields specNonEmpty
      rw [List.filter_filter]
      congr 1
      funext f
      by_cases h1 : f.1 = k <;> by_cases h2 : f.2 = [] <;> simp [h1, h2]
    rw [e]
    cases ((specOccurrences buf (retained buf)).filter
      (fun f => decide (f.1 = k ∧ f.2 ≠ []))).getLast? with
    | none => simp [GoMap.get]
    | some f => simp

/-- A label that occurs three times: the value of the second occurrence
replaces that of the first, and the third occurrence, whose value is empty,
changes nothing. -/
theorem repeated_label_example :
    parse (str "Title:\na\nTitle:\nb\nTitle:\n\n") = .ok [(str "title", .str (str "b"))] :=
  rfl

/-- Texts without a label match give the empty result: plain text, a label
that is not at a line start, and bytes that are not UTF-8. -/
theorem no_label_example :
    parse (str "no label here\n") = .ok [] ∧ parse (str " Title: x") = .ok [] ∧
    parse [255, 254, 58, 10] = .ok [] :=
  ⟨rfl, rfl, rfl⟩

/-- C7 as amended: for every text none of whose field values begins with a
label of the table followed by a colon, writing the fields the parser
produced back out (label, colon, newline, value, newline for each field in
order) and parsing that text again gives the same field sequence, hence the
same result, as the first parse; and writing out the entries of the map the
parser returned, in any order, and parsing again gives a map with the same
contents. -/
theorem reparse_is_idempotent (buf : Bytes)
    (h : ∀ f ∈ specFields buf, startsWithLabel f.2 = false) :
    specFields (specSerialize (specFields buf)) = specFields buf ∧
    parse buf = .ok (store (specFields buf) []) ∧
    parse (specSerialize (specFields buf)) = parse buf ∧
    ∀ es : List (Bytes × Bytes), es.Perm (entries (store (specFields buf) [])) →
      ∃ d, parse (specSerialize es) = .ok d ∧
        ∀ k, d.get k = (store (specFields buf) []).get k := by
  have hf : specFields (specSerialize (specFields buf)) = specFields buf :=
    fields_serialize _ (fun f hf => fields_good buf f hf (h f hf))
  refine ⟨hf, parse_eq buf, ?_, ?_⟩
  · rw [parse_eq, parse_eq, hf]
  · intro es hes
    obtain ⟨h1, h2⟩ := reparse_entries buf h es hes
    exact ⟨_, h1, h2⟩

/-- C7 as amended, on scenario A: the fields `Fix bug` and `@alice` begin
with no label, and writing them out and parsing again gives them back. -/
theorem reparse_is_idempotent_witness :
    specFields (specSerialize (specFields (str "Title:\nFix bug\n\nOwner:\n@alice\n"))) =
      specFields (str "Title:\nFix bug\n\nOwner:\n@alice\n") ∧
    specFields (str "Title:\nFix bug\n\nOwner:\n@alice\n") =
      [(str "title", str "Fix bug"), (str "ownerPHID", str "@alice")] :=
  ⟨(reparse_is_idempotent (str "Title:\nFix bug\n\nOwner:\n@alice\n") (by decide)).1, rfl⟩

/-- C7 as stated fails: the text `Title: Owner: bob` has the one field title
with the value `Owner: bob`; written out it reads `Title:`, `Owner: bob` on
two lines, and parsing that gives the one field ownerPHID with the value
`bob`, the title being lost. -/
theorem reparse_changes_fields :
    parse (str "Title: Owner: bob") = .ok [(str "title", .str (str "Owner: bob"))] ∧
    specFields (str "Title: Owner: bob") = [(str "title", str "Owner: bob")] ∧
    specSerialize (specFields (str "Title: Owner: bob")) = str "Title:\nOwner: bob\n" ∧
    specFields (specSerialize (specFields (str "Title: Owner: bob"))) = [(str "ownerPHID", str "bob")] ∧
    parse (specSerialize (specFields (str "Title: Owner: bob"))) =
      .ok [(str "ownerPHID", .str (str "bob"))] ∧
    specFields (specSerialize (specFields (str "Title: Owner: bob"))) ≠ specFields (str "Title: Owner: bob") :=
  ⟨rfl, rfl, rfl, rfl, rfl, by decide⟩

/-! ## The reference resolver and the driver: the claims -/

/-- C3 (the defect): on the owner value `alice,` the loop that builds the
token list reaches the empty second piece and the index expression `v[0]`
panics, so no token list is built; with the pieces `backend` and `#frontend`
it builds `#backend`, `#frontend`. -/
theorem requestNames_empty_piece_panics :
    split 44 (str "alice,") = [str "alice", []] ∧
    requestNames (str "alice,") 64 = .error (.panic "index out of range") ∧
    (∀ env, getPHIDs (str "alice,") 64 env = .error (.panic "index out of range")) ∧
    requestNames (str "backend, #frontend") 35 = .ok [str "#backend", str "#frontend"] :=
  ⟨rfl, rfl, fun _ => rfl, rfl⟩

theorem namesLoop_ok (sigil : Nat) (pieces : List Bytes) :
    ∀ acc : List Bytes, (∀ piece ∈ pieces, trimSpace piece ≠ []) →
      namesLoop sigil pieces acc =
        .ok (acc ++ pieces.map (fun piece =>
          if (trimSpace piece).head? = some sigil then trimSpace piece
          else sigil :: trimSpace piece)) := by
  induction pieces with
  | nil => intro acc _; simp [namesLoop]
  | cons piece rest ih =>
    intro acc h
    have hp := h piece (by simp)
    unfold namesLoop
    simp only
    cases hv : trimSpace piece with
    | nil => exact absurd hv hp
    | cons v0 vt =>
      simp only
      rw [ih _ (fun q hq => h q (by simp [hq]))]
      by_cases h0 : v0 = sigil
      · simp [hv, h0]
      · simp [hv, h0]

/-- The token list when no piece is empty: one token per piece, in order, a
piece that starts with the sigil unchanged, any other piece with the sigil
prepended once. -/
theorem requestNames_of_nonempty_pieces (value : Bytes) (sigil : Nat)
    (h : ∀ piece ∈ split 44 value, trimSpace piece ≠ []) :
    requestNames value sigil =
      .ok ((split 44 value).map (fun piece =>
        if (trimSpace piece).head? = some sigil then trimSpace piece
        else sigil :: trimSpace piece)) := by
  unfold requestNames
  rw [namesLoop_ok sigil _ [] h]
  simp

/-- C2 (the defect): `phids` is allocated with the length of the response
map, not of the token list.  With the tokens `@alice`, `@alice` and a response
holding `@alice` the second assignment `phids[1]` panics; with the token
`@alice` and a response holding `@alice` and `@bob` two identifiers are
returned for one token, the second one empty. -/
theorem getPHIDs_length_follows_response :
    requestNames (str "alice, alice") 64 = .ok [str "@alice", str "@alice"] ∧
    getPHIDs (str "alice, alice") 64
        (lookupOk [(str "@alice", [(str "phid", str "PHID-1")])]) =
      .error (.panic "index out of range") ∧
    getPHIDs (str "alice") 64
        (lookupOk [(str "@alice", [(str "phid", str "PHID-1")]),
          (str "@bob", [(str "phid", str "PHID-2")])]) =
      .ok [str "PHID-1", []] :=
  ⟨rfl, rfl, rfl⟩

/-- C4 as amended: when the Owner field is set, the token list of its value
is built, its tokens are pairwise distinct and the reply of a successful
lookup has empty error fields and maps no other token, then: at least one
token is requested; if a requested token is absent from the response the run
stops with `unable to find the phid of` the first such token; the run gets
past owner resolution exactly when one token is requested and the response
maps it, and `ownerPHID` is then the identifier the response gives for it;
and when all `n` tokens are mapped and `n` is not one the run stops with
`you should specify just 1 owner got: n`. -/
theorem owner_resolution_by_design (data : GoMap Value) (v : Bytes) (names : List Bytes)
    (response : GoMap (GoMap Bytes))
    (h : data.get (str "ownerPHID") = some (.str v))
    (hn : requestNames v 64 = .ok names)
    (hd : names.Nodup)
    (hx : ∀ p ∈ response, p.1 ∈ names) :
    names ≠ [] ∧
    (∀ found o later, names = found ++ o :: later →
      (∀ x ∈ found, response.get x ≠ none) → response.get o = none →
      resolveOwner data (lookupOk response) =
        .error (.fatal 251 (.errorf (str "unable to find the phid of %q") [.q o]))) ∧
    (∀ d, resolveOwner data (lookupOk response) = .ok d ↔
      ∃ o, names = [o] ∧ response.get o ≠ none ∧
        d = data.set (str "ownerPHID") (.str (phidOf response o))) ∧
    ((∀ o ∈ names, response.get o ≠ none) → names.length ≠ 1 →
      resolveOwner data (lookupOk response) =
        .error (.fatal 134 (.errorf (str "you should specify just 1 owner got: %d")
          [.d names.length]))) := by
  obtain ⟨hok, hbad, herr⟩ := resolveOwner_of_getPHIDs data v (lookupOk response) h
  have hmiss : ∀ found o later, names = found ++ o :: later →
      (∀ x ∈ found, response.get x ≠ none) → response.get o = none →
      getPHIDs v 64 (lookupOk response) =
        .error (.fatal 251 (.errorf (str "unable to find the phid of %q") [.q o])) :=
    fun found o later hs hf ho =>
      getPHIDs_missing v 64 names response hn hd found o later hs hf ho
  refine ⟨requestNames_ne_nil v 64 names hn, ?_, ?_, ?_⟩
  · intro found o later hs hf ho
    exact herr _ (hmiss found o later hs hf ho)
  · intro d
    constructor
    · intro hr
      obtain ⟨p, hp, hdp⟩ := (hok d).mp hr
      by_cases hall : ∀ o ∈ names, response.get o ≠ none
      · rw [getPHIDs_exact v 64 names response hn hd hall hx] at hp
        simp only [Except.ok.injEq] at hp
        cases names with
        | nil => simp at hp
        | cons o rest =>
          cases rest with
          | nil =>
            simp only [List.map_cons, List.map_nil, List.cons.injEq, and_true] at hp
            exact ⟨o, rfl, hall o (by simp), by rw [hdp, hp]⟩
          | cons o2 rest2 => simp at hp
      · obtain ⟨found, o, later, hs, hf, ho⟩ :=
          first_failing (fun o => response.get o ≠ none) names hall
        rw [hmiss found o later hs hf (not_not.mp ho)] at hp
        exact absurd hp (by simp)
    · rintro ⟨o, hs, ho, hdp⟩
      have hall : ∀ x ∈ names, response.get x ≠ none := by
        intro x hx1
        rw [hs] at hx1
        simp only [List.mem_singleton] at hx1
        rw [hx1]
        exact ho
      refine (hok d).mpr ⟨phidOf response o, ?_, hdp⟩
      rw [getPHIDs_exact v 64 names response hn hd hall hx, hs]
      rfl
  · intro hall hlen
    have hg := getPHIDs_exact v 64 names response hn hd hall hx
    have := hbad _ hg (by simpa using hlen)
    simpa using this

/-- C4 as amended, on scenario B and scenario A: the owner value
`alice, bob` with a response that maps `@alice` and `@bob` stops the run with
`got: 2`; the owner value `@alice` with a response that maps `@alice` to
`PHID-1` sets `ownerPHID` to `PHID-1`. -/
theorem owner_resolution_by_design_witness :
    resolveOwner [(str "ownerPHID", .str (str "alice, bob"))]
        (lookupOk [(str "@alice", [(str "phid", str "PHID-1")]),
          (str "@bob", [(str "phid", str "PHID-2")])]) =
      .error (.fatal 134 (.errorf (str "you should specify just 1 owner got: %d") [.d 2])) ∧
    resolveOwner [(str "title", .str (str "Fix bug")), (str "ownerPHID", .str (str "@alice"))]
        (lookupOk [(str "@alice", [(str "phid", str "PHID-1")])]) =
      .ok [(str "title", .str (str "Fix bug")), (str "ownerPHID", .str (str "PHID-1"))] :=
  ⟨(owner_resolution_by_design [(str "ownerPHID", .str (str "alice, bob"))]
      (str "alice, bob") [str "@alice", str "@bob"]
      [(str "@alice", [(str "phid", str "PHID-1")]), (str "@bob", [(str "phid", str "PHID-2")])]
      rfl rfl (by decide) (by decide)).2.2.2 (by decide) (by decide),
   ((owner_resolution_by_design
      [(str "title", .str (str "Fix bug")), (str "ownerPHID", .str (str "@alice"))]
      (str "@alice") [str "@alice"] [(str "@alice", [(str "phid", str "PHID-1")])]
      rfl rfl (by decide) (by decide)).2.2.1 _).mpr ⟨str "@alice", rfl, by decide, rfl⟩⟩

/-- C4 as stated fails: the owner value `alice` with a response that maps
nothing resolves to no identifier, and the run stops in `getPHIDs` with
`unable to find the phid of` the token `@alice`, not with
`you should specify just 1 owner got: 0`. -/
theorem unresolved_owner_is_not_counted :
    requestNames (str "alice") 64 = .ok [str "@alice"] ∧
    resolveOwner [(str "ownerPHID", .str (str "alice"))] (lookupOk []) =
      .error (.fatal 251 (.errorf (str "unable to find the phid of %q")
        [.q (str "@alice")])) ∧
    resolveOwner [(str "ownerPHID", .str (str "alice"))] (lookupOk []) ≠
      .error (.fatal 134 (.errorf (str "you should specify just 1 owner got: %d") [.d 0])) := by
  refine ⟨rfl, rfl, ?_⟩
  intro hc
  have h2 : resolveOwner [(str "ownerPHID", .str (str "alice"))] (lookupOk []) =
      .error (.fatal 251 (.errorf (str "unable to find the phid of %q")
        [.q (str "@alice")])) := rfl
  rw [h2] at hc
  simp only [Except.error.injEq, Failure.fatal.injEq] at hc
  exact absurd hc.1 (by decide)

/-- The number owner resolution reports is the number of entries of the
response, which `getPHIDs` takes for the length of its result: the one owner
`alice` with a response that maps `@alice` and `@bob` is refused with
`got: 2`, the owners `alice, bob` with a response of three entries with
`got: 3`, and the owner `alice, alice` with a response that maps `@alice`
panics in `getPHIDs`. -/
theorem owner_count_follows_response :
    resolveOwner [(str "ownerPHID", .str (str "alice"))]
        (lookupOk [(str "@alice", [(str "phid", str "PHID-1")]),
          (str "@bob", [(str "phid", str "PHID-2")])]) =
      .error (.fatal 134 (.errorf (str "you should specify just 1 owner got: %d") [.d 2])) ∧
    resolveOwner [(str "ownerPHID", .str (str "alice, bob"))]
        (lookupOk [(str "@alice", [(str "phid", str "PHID-1")]),
          (str "@bob", [(str "phid", str "PHID-2")]),
          (str "@carol", [(str "phid", str "PHID-3")])]) =
      .error (.fatal 134 (.errorf (str "you should specify just 1 owner got: %d") [.d 3])) ∧
    resolveOwner [(str "ownerPHID", .str (str "alice, alice"))]
        (lookupOk [(str "@alice", [(str "phid", str "PHID-1")])]) =
      .error (.panic "index out of range") :=
  ⟨rfl, rfl, rfl⟩

/-- Scenario A: the owner value `@alice` with a response that maps `@alice`
to `PHID-1` sets `ownerPHID` to `PHID-1`. -/
theorem owner_scenario_A :
    parse (str "Title:\nFix bug\n\nOwner:\n@alice\n") =
      .ok [(str "title", .str (str "Fix bug")), (str "ownerPHID", .str (str "@alice"))] ∧
    resolveOwner [(str "title", .str (str "Fix bug")), (str "ownerPHID", .str (str "@alice"))]
        (lookupOk [(str "@alice", [(str "phid", str "PHID-1")])]) =
      .ok [(str "title", .str (str "Fix bug")), (str "ownerPHID", .str (str "PHID-1"))] :=
  ⟨rfl, rfl⟩

theorem bind_ok_iff {α β : Type} (x : Run α) (f : α → Run β) (b : β) :
    (x >>= f) = .ok b ↔ ∃ a, x = .ok a ∧ f a = .ok b := by
  cases x with
  | error e =>
    constructor
    · intro h; exact absurd h (by simp [bind, Except.bind])
    · rintro ⟨a, h, _⟩; exact absurd h (by simp)
  | ok a =>
    constructor
    · intro h; exact ⟨a, rfl, h⟩
    · rintro ⟨a1, h, hf⟩
      simp only [Except.ok.injEq] at h
      subst h
      exact hf

/-- C5 as amended: when the error field or the errorMessage field of a
decoded lookup or submission reply is not empty the run stops at the check,
whatever the response object holds: `getPHIDs` returns no identifiers, `main`
reports no success, and the message of the diagnostic is the text of the
errorMessage field. -/
theorem remote_error_is_fatal (res : LookupReply) (sub : SubmitReply) (names : List Bytes)
    (h1 : res.error ≠ [] ∨ res.errorMessage ≠ [])
    (h2 : sub.error ≠ [] ∨ sub.errorMessage ≠ []) :
    lookupDecoded res names = .error (.fatal 244 (.new res.errorMessage)) ∧
    submitDecoded sub = .error (.fatal 199 (.new sub.errorMessage)) ∧
    (∀ value sigil env, env.res = res → ∀ ids, getPHIDs value sigil env ≠ .ok ids) ∧
    (∀ env : Env, env.res = sub → ∀ r, main env ≠ .ok r) := by
  have hl : lookupDecoded res names = .error (.fatal 244 (.new res.errorMessage)) := by
    unfold lookupDecoded; rw [if_pos h1]; rfl
  have hs : submitDecoded sub = .error (.fatal 199 (.new sub.errorMessage)) := by
    unfold submitDecoded; rw [if_pos h2]; rfl
  refine ⟨hl, hs, ?_, ?_⟩
  · intro value sigil env he ids hg
    unfold getPHIDs at hg
    obtain ⟨nm, _, hg⟩ := (bind_ok_iff _ _ _).mp hg
    obtain ⟨_, _, hg⟩ := (bind_ok_iff _ _ _).mp hg
    obtain ⟨_, _, hg⟩ := (bind_ok_iff _ _ _).mp hg
    obtain ⟨_, _, hg⟩ := (bind_ok_iff _ _ _).mp hg
    obtain ⟨_, _, hg⟩ := (bind_ok_iff _ _ _).mp hg
    rw [he] at hg
    unfold lookupDecoded at hg
    rw [if_pos h1] at hg
    exact absurd hg (by simp [fatal])
  · intro env he r hm
    unfold main at hm
    obtain ⟨_, _, hm⟩ := (bind_ok_iff _ _ _).mp hm
    obtain ⟨_, _, hm⟩ := (bind_ok_iff _ _ _).mp hm
    obtain ⟨_, _, hm⟩ := (bind_ok_iff _ _ _).mp hm
    obtain ⟨_, _, hm⟩ := (bind_ok_iff _ _ _).mp hm
    obtain ⟨_, _, hm⟩ := (bind_ok_iff _ _ _).mp hm
    obtain ⟨_, _, hm⟩ := (bind_ok_iff _ _ _).mp hm
    obtain ⟨_, _, hm⟩ := (bind_ok_iff _ _ _).mp hm
    obtain ⟨_, _, hm⟩ := (bind_ok_iff _ _ _).mp hm
    obtain ⟨_, _, hm⟩ := (bind_ok_iff _ _ _).mp hm
    obtain ⟨u, hu, _⟩ := (bind_ok_iff _ _ _).mp hm
    rw [he, hs] at hu
    exact absurd hu (by simp)

/-- C5, scenario D: a lookup reply whose errorMessage is `boom` stops the run
with the message `boom` although its response maps the requested token, and a
submission reply with that errorMessage stops it too although it holds a URI. -/
theorem remote_error_is_fatal_witness :
    lookupDecoded ⟨[], str "boom", [(str "@alice", [(str "phid", str "PHID-1")])]⟩
        [str "@alice"] = .error (.fatal 244 (.new (str "boom"))) ∧
    submitDecoded ⟨[], str "boom", str "https://x/T1", str "T1"⟩ =
      .error (.fatal 199 (.new (str "boom"))) :=
  let h := remote_error_is_fatal
    ⟨[], str "boom", [(str "@alice", [(str "phid", str "PHID-1")])]⟩
    ⟨[], str "boom", str "https://x/T1", str "T1"⟩ [str "@alice"]
    (Or.inr (by decide)) (Or.inr (by decide))
  ⟨h.1, h.2.1⟩

/-- C5 as stated fails: a reply whose error field is `ERR-CONDUIT-CORE` and
whose errorMessage field is empty stops the run with an empty message, not
with the text of the error field, in the lookup and in the submission. -/
theorem error_code_alone_gives_empty_message :
    (⟨str "ERR-CONDUIT-CORE", [], []⟩ : LookupReply).error ≠ [] ∧
    lookupDecoded ⟨str "ERR-CONDUIT-CORE", [], []⟩ [str "@alice"] =
      .error (.fatal 244 (.new [])) ∧
    lookupDecoded ⟨str "ERR-CONDUIT-CORE", [], []⟩ [str "@alice"] ≠
      .error (.fatal 244 (.new (str "ERR-CONDUIT-CORE"))) ∧
    submitDecoded ⟨str "ERR-CONDUIT-CORE", [], [], []⟩ = .error (.fatal 199 (.new [])) ∧
    submitDecoded ⟨str "ERR-CONDUIT-CORE", [], [], []⟩ ≠
      .error (.fatal 199 (.new (str "ERR-CONDUIT-CORE"))) := by
  refine ⟨by decide, rfl, ?_, rfl, ?_⟩
  · intro h
    have h2 : lookupDecoded ⟨str "ERR-CONDUIT-CORE", [], []⟩ [str "@alice"] =
        .error (.fatal 244 (.new [])) := rfl
    rw [h2] at h
    simp only [Except.error.injEq, Failure.fatal.injEq, GoError.new.injEq, true_and] at h
    exact absurd h (by decide)
  · intro h
    have h2 : submitDecoded ⟨str "ERR-CONDUIT-CORE", [], [], []⟩ =
        .error (.fatal 199 (.new [])) := rfl
    rw [h2] at h
    simp only [Except.error.injEq, Failure.fatal.injEq, GoError.new.injEq, true_and] at h
    exact absurd h (by decide)

/-- C8 (the defect): the error of `ioutil.ReadAll` is not checked.  In a run
whose read step fails after delivering `Title:` and `abc`, every other step
succeeding, the text read so far is parsed and submitted and success is
reported; in general the outcome of a run does not depend on the error of the
read step. -/
theorem read_error_is_ignored :
    main { envOk (str "Title:\nabc") (lookupOk []) (lookupOk []) (lookupOk [])
            ⟨[], [], str "https://x/T1", str "T1"⟩ with
          readErr := some (str "read /tmp/task1: input/output error") } =
      .ok ⟨[(str "title", .str (str "abc"))], str "https://x/T1"⟩ ∧
    ∀ (env : Env) (e : Option Bytes), main { env with readErr := e } = main env :=
  ⟨rfl, fun _ _ => rfl⟩

/-- The six checked steps of the editing session: an error of creating,
writing or closing the file, of starting or awaiting the editor or of
re-opening the file stops the run at the call that reports it. -/
theorem checked_edit_steps_are_fatal (env : Env) (e : Bytes) :
    (env.tempFileErr = some e → main env = .error (.fatal 51 (.sys e))) ∧
    (env.tempFileErr = none → env.writeErr = some e →
      main env = .error (.fatal 61 (.sys e))) ∧
    (env.tempFileErr = none → env.writeErr = none → env.closeErr = some e →
      main env = .error (.fatal 64 (.sys e))) ∧
    (env.tempFileErr = none → env.writeErr = none → env.closeErr = none →
      env.editorStartErr = some e → main env = .error (.fatal 74 (.sys e))) ∧
    (env.tempFileErr = none → env.writeErr = none → env.closeErr = none →
      env.editorStartErr = none → env.editorWaitErr = some e →
      main env = .error (.fatal 77 (.sys e))) ∧
    (env.tempFileErr = none → env.writeErr = none → env.closeErr = none →
      env.editorStartErr = none → env.editorWaitErr = none → env.openErr = some e →
      main env = .error (.fatal 81 (.sys e))) := by
  refine ⟨?_, ?_, ?_, ?_, ?_, ?_⟩ <;> intros <;>
    simp_all [main, editSession, fatalIf, bind, Except.bind]

/-- Scenario E: a submission reply with empty error fields and the URI
`https://x/T1` reports success with that URI. -/
theorem submit_scenario_E :
    submitDecoded ⟨[], [], str "https://x/T1", str "T1"⟩ = .ok (str "https://x/T1") := rfl

end ArcTodo
